import Mathlib

/-!
# Verification of the RAG backend's retrieval-and-context-assembly pipeline

Shallow embedding of the core algorithms of the repository's Python backend
(`backend/rag.py`, `backend/ingest.py`, `backend/enhanced_retrieval.py`,
`backend/app.py`) together with theorems settling the specification claims.

Modelling conventions:
* Python `int` is `Nat`/`Int` (Python integers are unbounded, no wrap-around).
* Python `float` relevance scores are modelled as `ℚ`; in the embedded code
  paths scores are only stored and compared, never rounded, so rational
  arithmetic is faithful for the properties below.
* `llama.tokenize` (used through `_tok_len`) is an external model artifact;
  functions that measure tokens are parameterised by an arbitrary
  `tokLen : String → Nat`.  A concrete instance `tok_len_model` (one token per
  character) is used for witnesses and counterexamples.
* `np.argsort(xs)` (default `kind='quicksort'`, documented as not stable)
  leaves the relative order of equal values unspecified.  The C9 theorem
  therefore quantifies over *every* admissible argsort outcome
  (`isArgsortAsc`).  The `search` embedding uses one concrete admissible
  instance, `argsortDesc` (a stable ascending argsort, reversed); the
  theorems proved about `search` do not depend on the tie order.
-/

namespace RagCheck

/-! ## Generic helpers -/

/-- Join a list of strings with a separator (Python `sep.join(xs)`). -/
def joinSep (sep : String) : List String → String
  | [] => ""
  | [x] => x
  | x :: xs => x ++ sep ++ joinSep sep xs

/-- Python `sub in s` (substring containment) on character lists. -/
def listContainsSub (sub : List Char) : List Char → Bool
  | [] => decide (sub = [])
  | c :: cs => sub.isPrefixOf (c :: cs) || listContainsSub sub cs

/-- Python `sub in s` for strings. -/
def strContainsSub (s sub : String) : Bool :=
  listContainsSub sub.data s.data

/-- Python `s.strip()`: drop leading and trailing whitespace.  Implemented on
character lists (structurally recursive, hence kernel-computable, unlike the
core `String.trim`). -/
def pyStrip (s : String) : String :=
  String.mk
    (((s.data.dropWhile Char.isWhitespace).reverse.dropWhile
        Char.isWhitespace).reverse)

/-- Python `s.lower()` (ASCII case folding, which covers every string the
repository compares). -/
def pyLower (s : String) : String :=
  String.mk (s.data.map Char.toLower)

/-- Lexicographic `<` on character lists by code point (Python string
comparison).  Structural, hence kernel-computable, unlike core `String.ltb`. -/
def pyLtList : List Char → List Char → Bool
  | [], [] => false
  | [], _ :: _ => true
  | _ :: _, [] => false
  | a :: as, b :: bs =>
    if a.val < b.val then true
    else if b.val < a.val then false
    else pyLtList as bs

/-- Python `a <= b` on strings (total lexicographic order by code point). -/
def pyStrLe (a b : String) : Prop :=
  pyLtList b.data a.data = false

instance : DecidableRel pyStrLe := fun a b => by
  unfold pyStrLe
  infer_instance

/-!
## `rag.py` — token-budget arithmetic (`_safe_max_new_tokens`, lines 361-367)

```python
def _safe_max_new_tokens(llm, prompt, *, min_answer: int = 32) -> int:
    used = _tok_len(llm, prompt)
    room = max(0, N_CTX - used - 16)
    if room < min_answer:
        return max(8, room)
    return min(MAX_TOKENS, room)
```
`used` is the measured token count of the prompt; `n_ctx`, `max_tokens_cfg`
are the configured `N_CTX` (default 1024) and `MAX_TOKENS` (default 256).
Note `Nat` subtraction saturates at 0, which is exactly `max(0, ...)`.
-/

def safe_max_new_tokens (n_ctx max_tokens_cfg : Nat) (used : Nat)
    (min_answer : Nat) : Nat :=
  let room := n_ctx - used - 16
  if room < min_answer then max 8 room else min max_tokens_cfg room

/-- Concrete model tokenizer: one token per character.  Stands in for
`llm.tokenize` in witnesses/counterexamples; theorems quantify over arbitrary
tokenizers. -/
def tok_len_model (s : String) : Nat := s.length

/-- A 1024-character prompt used to exhibit the context-window overflow. -/
def bigPromptC1 : String := String.mk (List.replicate 1024 'a')

set_option maxRecDepth 8000 in
/-- C1, counterexample.  The claim "for every prompt string the value
`_safe_max_new_tokens` returns plus the measured token count of that prompt
never exceeds `N_CTX`" is false: for a prompt measuring 1024 tokens under the
model tokenizer (`N_CTX = 1024`, `MAX_TOKENS = 256`, default
`min_answer = 32`), `room = max(0, 1024 - 1024 - 16) = 0 < 32`, so the
function returns `max(8, 0) = 8` and `8 + 1024 = 1032 > 1024 = N_CTX`. -/
theorem C1_safe_max_plus_prompt_overflow :
    safe_max_new_tokens 1024 256 (tok_len_model bigPromptC1) 32
      + tok_len_model bigPromptC1 = 1032 ∧ 1024 < 1032 := by
  constructor
  · rfl
  · decide

/-- C1, amended.  Whenever the measured prompt token count is at most
`N_CTX - 8`, the computed max-output-token count plus the prompt token count
does not exceed `N_CTX` (for every tokenizer, every configured `MAX_TOKENS`
and every `min_answer`).  The bound `N_CTX - 8` is tight: the `max(8, room)`
floor (the source's "nunca 0" fallback) makes the sum exceed `N_CTX` exactly
when the prompt measures more than `N_CTX - 8` tokens. -/
theorem C1_safe_max_new_tokens_bounded (tokLen : String → Nat) (prompt : String)
    (n_ctx max_tokens_cfg min_answer : Nat)
    (h : tokLen prompt + 8 ≤ n_ctx) :
    safe_max_new_tokens n_ctx max_tokens_cfg (tokLen prompt) min_answer
      + tokLen prompt ≤ n_ctx := by
  simp only [safe_max_new_tokens, sup_eq_max, inf_eq_min]
  split <;> omega

/-- C1, witness for the amended theorem at a concrete input: a 4-character
prompt under the model tokenizer with the repository's default
configuration. -/
theorem C1_witness :
    tok_len_model "hola" + 8 ≤ 1024 ∧
    safe_max_new_tokens 1024 256 (tok_len_model "hola") 32
      + tok_len_model "hola" ≤ 1024 :=
  ⟨by decide,
   C1_safe_max_new_tokens_bounded tok_len_model "hola" 1024 256 32 (by decide)⟩

/-!
## `rag.py` — prompt template and token-budgeted clipping
(`_format_prompt_inst`, lines 370-385, and `build_prompt_clipped`,
lines 387-407)
-/

/-- The fixed system instructions of `_format_prompt_inst`. -/
def promptSys : String :=
  "Eres un asistente PRECISO. Responde SOLO con información que esté en los " ++
  "fragmentos proporcionados. No inventes nada. " ++
  "Si el contexto no contiene la respuesta, escribe EXACTAMENTE: " ++
  "\"No hay información suficiente en el contexto.\""

/-- The user block of `_format_prompt_inst` (question is stripped). -/
def promptUser (question : String) : String :=
  "Usa EXCLUSIVAMENTE los fragmentos anteriores. " ++
  "Responde en español, de forma breve y directa. " ++
  "Pregunta: " ++ pyStrip question

/-- The numbered context block: `"\n\n".join(f"[{i+1}] {c.strip()}" for i, c
in enumerate(contexts) if c and c.strip())`.  Skipped (empty) contexts leave
gaps in the numbering, as in the source. -/
def ctxBlock (contexts : List String) : String :=
  joinSep "\n\n" (contexts.enum.filterMap (fun p =>
    if p.2 ≠ "" ∧ pyStrip p.2 ≠ "" then
      some ("[" ++ toString (p.1 + 1) ++ "] " ++ pyStrip p.2)
    else none))

/-- Embeds `_format_prompt_inst` (rag.py lines 370-385): the Mistral-Instruct
template wrapping system instructions, the context block and the question. -/
def _format_prompt_inst (question : String) (contexts : List String) : String :=
  "<s>[INST] <<SYS>>\n" ++ promptSys ++ "\n<</SYS>>\n\nContexto:\n" ++
    ctxBlock contexts ++ "\n\n" ++ promptUser question ++ " [/INST]"

/-- The passage-accumulation loop of `build_prompt_clipped` (lines 393-404):
whitespace-only passages are skipped with `continue`; otherwise the candidate
context list is probed against the token budget and the loop `break`s at the
first passage that does not fit. -/
def clipLoopAux (tokLen : String → Nat) (budget : Nat) (question : String) :
    List String → List String → List String
  | [], contexts => contexts
  | txt :: rest, contexts =>
    let t := pyStrip txt
    if t = "" then clipLoopAux tokLen budget question rest contexts
    else
      let candidate := contexts ++ [t]
      if tokLen (_format_prompt_inst question candidate) ≤ budget then
        clipLoopAux tokLen budget question rest candidate
      else contexts

/-- Embeds `build_prompt_clipped` (rag.py lines 387-407).  The budget
`int(N_CTX * 0.65)` is modelled by exact integer arithmetic
`n_ctx * 65 / 100`.  `tokLen` stands for `_tok_len(llm, ·)`. -/
def build_prompt_clipped (tokLen : String → Nat) (n_ctx : Nat)
    (question : String) (passages : List (Nat × ℚ × String)) : String :=
  let budget := n_ctx * 65 / 100
  _format_prompt_inst question
    (clipLoopAux tokLen budget question (passages.map (fun p => p.2.2)) [])

/-- The trimmed, non-empty passage texts, in ranked order: the sequence the
clipping loop actually considers. -/
def passageTexts (txts : List String) : List String :=
  (txts.map pyStrip).filter (fun t => t ≠ "")

/-- A 700-character question that by itself overflows the prompt budget. -/
def bigQuestionC2 : String := String.mk (List.replicate 700 'b')

lemma passageTexts_cons (txt : String) (rest : List String) :
    passageTexts (txt :: rest) =
      if pyStrip txt = "" then passageTexts rest
      else pyStrip txt :: passageTexts rest := by
  by_cases h : pyStrip txt = "" <;> simp [passageTexts, h]

/-- Behaviour of the clipping loop: it extends the accumulated context list by
a prefix of the trimmed non-empty passage texts, every intermediate prompt it
accepted fits the budget, and if it stopped before exhausting the passages
then the next passage would overflow the budget. -/
lemma clipLoopAux_spec (tokLen : String → Nat) (budget : Nat) (q : String) :
    ∀ (txts : List String) (ctxs : List String),
      ∃ n, n ≤ (passageTexts txts).length ∧
        clipLoopAux tokLen budget q txts ctxs
          = ctxs ++ (passageTexts txts).take n ∧
        (∀ j, 1 ≤ j → j ≤ n →
          tokLen (_format_prompt_inst q (ctxs ++ (passageTexts txts).take j))
            ≤ budget) ∧
        (n < (passageTexts txts).length →
          budget <
            tokLen (_format_prompt_inst q
              (ctxs ++ (passageTexts txts).take (n + 1)))) := by
  intro txts
  induction txts with
  | nil =>
    intro ctxs
    refine ⟨0, by simp [passageTexts], by simp [clipLoopAux], ?_,
      by simp [passageTexts]⟩
    intro j h1 hj
    omega
  | cons txt rest ih =>
    intro ctxs
    by_cases ht : pyStrip txt = ""
    · obtain ⟨n, hn, heq, hfits, hover⟩ := ih ctxs
      refine ⟨n, ?_, ?_, ?_, ?_⟩ <;>
        simp only [passageTexts_cons, ht, if_pos rfl, clipLoopAux, if_true]
      · exact hn
      · simpa [clipLoopAux, ht] using heq
      · exact hfits
      · exact hover
    · by_cases hfit :
        tokLen (_format_prompt_inst q (ctxs ++ [pyStrip txt])) ≤ budget
      · obtain ⟨n, hn, heq, hfits, hover⟩ := ih (ctxs ++ [pyStrip txt])
        refine ⟨n + 1, ?_, ?_, ?_, ?_⟩ <;>
          simp only [passageTexts_cons, if_neg ht]
        · simpa using Nat.succ_le_succ hn
        · have : clipLoopAux tokLen budget q (txt :: rest) ctxs
              = clipLoopAux tokLen budget q rest (ctxs ++ [pyStrip txt]) := by
            simp [clipLoopAux, ht, hfit]
          rw [this, heq, List.take_succ_cons, List.append_assoc]
          simp
        · intro j h1 hj
          match j, h1 with
          | 1, _ =>
            simpa using hfit
          | (j' + 2), _ =>
            have hj' : 1 ≤ j' + 1 := by omega
            have hj'' : j' + 1 ≤ n := by omega
            have := hfits (j' + 1) hj' hj''
            simpa [List.take_succ_cons, List.append_assoc] using this
        · intro hlt
          have hlt' : n < (passageTexts rest).length := by
            simpa using hlt
          have := hover hlt'
          simpa [List.take_succ_cons, List.append_assoc] using this
      · refine ⟨0, by simp, ?_, ?_, ?_⟩ <;>
          simp only [passageTexts_cons, if_neg ht]
        · simp [clipLoopAux, ht, hfit]
        · intro j h1 hj; omega
        · intro _
          simpa [List.take_succ_cons] using Nat.lt_of_not_le hfit

set_option maxRecDepth 8000 in
/-- C2, counterexample.  The claim "for every question and every ranked
passage list the prompt returned by `build_prompt_clipped` has a measured
token count at most `int(N_CTX * 0.65)`" is false: with `N_CTX = 1024`
(budget 665) and a 700-character question, even the prompt with an *empty*
context block measures more than 665 tokens under the model tokenizer, and
the function returns it anyway ("Si no cupo nada, igual valida..."). -/
theorem C2_prompt_over_budget :
    1024 * 65 / 100 <
      tok_len_model (build_prompt_clipped tok_len_model 1024 bigQuestionC2 []) := by
  decide

/-- C2, amended.  Provided the empty-context prompt for the question fits the
budget `int(N_CTX * 0.65)` (modelled as `n_ctx * 65 / 100`), the prompt
returned by `build_prompt_clipped` fits the budget.  Moreover, for every
question and passage list: the included contexts are a *prefix* of the
trimmed non-empty passage texts in ranked order (no skipping ahead), every
accepted prefix fits the budget, and the loop stopped either because the
passages were exhausted or because the very next passage would overflow the
budget; when no passage fits (`n = 0`) the prompt is returned with an empty
context block. -/
theorem C2_build_prompt_clipped_spec (tokLen : String → Nat) (n_ctx : Nat)
    (q : String) (passages : List (Nat × ℚ × String))
    (h0 : tokLen (_format_prompt_inst q []) ≤ n_ctx * 65 / 100) :
    tokLen (build_prompt_clipped tokLen n_ctx q passages) ≤ n_ctx * 65 / 100 ∧
    ∃ n ≤ (passageTexts (passages.map (fun p => p.2.2))).length,
      build_prompt_clipped tokLen n_ctx q passages
        = _format_prompt_inst q
            ((passageTexts (passages.map (fun p => p.2.2))).take n) ∧
      (∀ j, 1 ≤ j → j ≤ n →
        tokLen (_format_prompt_inst q
          ((passageTexts (passages.map (fun p => p.2.2))).take j))
          ≤ n_ctx * 65 / 100) ∧
      (n < (passageTexts (passages.map (fun p => p.2.2))).length →
        n_ctx * 65 / 100 <
          tokLen (_format_prompt_inst q
            ((passageTexts (passages.map (fun p => p.2.2))).take (n + 1)))) := by
  obtain ⟨n, hn, heq, hfits, hover⟩ :=
    clipLoopAux_spec tokLen (n_ctx * 65 / 100) q
      (passages.map (fun p => p.2.2)) []
  simp only [List.nil_append] at heq hfits hover
  have hres : build_prompt_clipped tokLen n_ctx q passages
      = _format_prompt_inst q
          ((passageTexts (passages.map (fun p => p.2.2))).take n) := by
    simp only [build_prompt_clipped]
    rw [heq]
  refine ⟨?_, n, hn, hres, hfits, hover⟩
  rw [hres]
  rcases Nat.eq_zero_or_pos n with h | h
  · subst h
    simpa using h0
  · exact hfits n h le_rfl

set_option maxRecDepth 8000 in
/-- C2, witness for the amended theorem: default `N_CTX = 1024`, a short
question and one short passage; the empty-context prompt fits the budget. -/
theorem C2_witness :
    (tok_len_model (_format_prompt_inst "q" []) ≤ 1024 * 65 / 100) ∧
    (tok_len_model
        (build_prompt_clipped tok_len_model 1024 "q" [(0, 0, "hola mundo")])
      ≤ 1024 * 65 / 100) :=
  ⟨by decide,
   (C2_build_prompt_clipped_spec tok_len_model 1024 "q" [(0, 0, "hola mundo")]
      (by decide)).1⟩

/-!
## `rag.py` — BM25 top-k (`_bm25_topk`, lines 82-86)

```python
def _bm25_topk(chunks, query, topn=50):
    bm25 = _ensure_bm25(chunks)
    scores = bm25.get_scores(_simple_tokens(query))
    idxs = np.argsort(scores)[::-1][:topn]
    return idxs.tolist()
```
`bm25.get_scores` (the external `rank_bm25` library) is abstracted as the
score vector `scores : List ℚ` (one score per chunk).  `np.argsort` with its
default `kind='quicksort'` is documented as not stable, so the order of
equal scores is unspecified; `isArgsortAsc` characterises every admissible
outcome, and `argsortDesc` fixes one admissible instance (a stable ascending
argsort, reversed) so that the `search` pipeline stays executable.
-/

/-- The stable ascending argsort order: score ascending, ties by index
ascending. -/
def argsortLe (scores : List ℚ) (i j : Nat) : Prop :=
  scores.getD i 0 < scores.getD j 0 ∨
    (scores.getD i 0 = scores.getD j 0 ∧ i ≤ j)

instance (scores : List ℚ) : DecidableRel (argsortLe scores) := fun i j => by
  unfold argsortLe
  infer_instance

instance (scores : List ℚ) : IsTotal Nat (argsortLe scores) := by
  constructor
  intro a b
  unfold argsortLe
  rcases lt_trichotomy (scores.getD a 0) (scores.getD b 0) with h | h | h
  · exact Or.inl (Or.inl h)
  · rcases Nat.le_total a b with hab | hab
    · exact Or.inl (Or.inr ⟨h, hab⟩)
    · exact Or.inr (Or.inr ⟨h.symm, hab⟩)
  · exact Or.inr (Or.inl h)

instance (scores : List ℚ) : IsTrans Nat (argsortLe scores) := by
  constructor
  intro a b c hab hbc
  unfold argsortLe at *
  rcases hab with h1 | ⟨h1, h1'⟩ <;> rcases hbc with h2 | ⟨h2, h2'⟩
  · exact Or.inl (h1.trans h2)
  · exact Or.inl (h2 ▸ h1)
  · exact Or.inl (h1 ▸ h2)
  · exact Or.inr ⟨h1.trans h2, h1'.trans h2'⟩

/-- One admissible instance of `np.argsort(scores)[::-1]`: a *stable*
ascending argsort of all indices, reversed.  Used by the executable `search`
embedding; no theorem about `search` depends on its tie order. -/
def argsortDesc (scores : List ℚ) : List Nat :=
  (List.insertionSort (argsortLe scores) (List.range scores.length)).reverse

/-- Embeds `_bm25_topk` (rag.py lines 82-86), abstracting the BM25 scoring of
the external library as the score vector. -/
def _bm25_topk (scores : List ℚ) (topn : Nat) : List Nat :=
  (argsortDesc scores).take topn

lemma argsortDesc_perm (scores : List ℚ) :
    List.Perm (argsortDesc scores) (List.range scores.length) :=
  ((List.reverse_perm _).trans (List.perm_insertionSort _ _))

lemma argsortDesc_nodup (scores : List ℚ) : (argsortDesc scores).Nodup :=
  (argsortDesc_perm scores).nodup_iff.mpr (List.nodup_range _)

lemma argsortDesc_mem (scores : List ℚ) {i : Nat}
    (h : i ∈ argsortDesc scores) : i < scores.length := by
  have := (argsortDesc_perm scores).mem_iff.mp h
  simpa using this

lemma argsortDesc_sorted (scores : List ℚ) :
    (argsortDesc scores).Sorted (fun i j => argsortLe scores j i) := by
  have h := List.sorted_insertionSort (argsortLe scores)
    (List.range scores.length)
  exact List.pairwise_reverse.mpr h

/-- An admissible outcome of `np.argsort(scores)` (default
`kind='quicksort'`, documented as not stable): some permutation of all chunk
indices in weakly ascending score order — the relative order of equal scores
is unspecified. -/
def isArgsortAsc (scores : List ℚ) (asc : List Nat) : Prop :=
  List.Perm asc (List.range scores.length) ∧
  asc.Sorted (fun i j => scores.getD i 0 ≤ scores.getD j 0)

/-- `np.argsort(scores)[::-1][:topn]` as a function of the argsort
outcome. -/
def bm25_topk_of_argsort (asc : List Nat) (topn : Nat) : List Nat :=
  asc.reverse.take topn

/-- The stable argsort used by the executable embedding is one admissible
outcome. -/
lemma stable_argsort_admissible (scores : List ℚ) :
    isArgsortAsc scores
      (List.insertionSort (argsortLe scores) (List.range scores.length)) := by
  constructor
  · exact List.perm_insertionSort _ _
  · refine (List.sorted_insertionSort (argsortLe scores)
      (List.range scores.length)).imp ?_
    intro i j hij
    rcases hij with h | ⟨h, _⟩
    · exact le_of_lt h
    · exact le_of_eq h

/-- C9, counterexample.  The claim "when two chunks have equal scores the one
with the smaller chunk index is ranked first" is false: on a two-element
array numpy's introsort runs its (stable) insertion sort, so
`np.argsort([5,5])` is `[0, 1]`, and the `[::-1]` reversal ranks index 1
*before* index 0. -/
theorem C9_equal_scores_larger_index_first :
    _bm25_topk [(5 : ℚ), 5] 2 = [1, 0] := by
  decide

/-- C9, amended.  For *every* admissible outcome of `np.argsort(scores)`
(any permutation of the chunk indices in weakly ascending score order —
the default quicksort leaves the order of equal scores unspecified),
`np.argsort(scores)[::-1][:topn]` returns `min topn |scores|`
pairwise-distinct in-range chunk indices in non-increasing score order, and
they carry maximal scores: every non-returned index's score is at most the
score of every returned index.  The claimed smaller-index-first tie-break is
guaranteed in no case; in particular the executable `_bm25_topk` instance
(reversal of a stable ascending argsort, numpy's behaviour in its
insertion-sort regime) is one admissible outcome, and it ranks equal scores
by *larger* index first, as the counterexample shows. -/
theorem C9_bm25_topk_spec (scores : List ℚ) (topn : Nat) (asc : List Nat)
    (hasc : isArgsortAsc scores asc) :
    (bm25_topk_of_argsort asc topn).Nodup ∧
    (bm25_topk_of_argsort asc topn).length = min topn scores.length ∧
    (∀ i ∈ bm25_topk_of_argsort asc topn, i < scores.length) ∧
    (bm25_topk_of_argsort asc topn).Sorted
      (fun i j => scores.getD j 0 ≤ scores.getD i 0) ∧
    (∀ i ∈ bm25_topk_of_argsort asc topn, ∀ j < scores.length,
      j ∉ bm25_topk_of_argsort asc topn →
        scores.getD j 0 ≤ scores.getD i 0) ∧
    _bm25_topk scores topn
      = bm25_topk_of_argsort
          (List.insertionSort (argsortLe scores) (List.range scores.length))
          topn := by
  obtain ⟨hperm, hsort⟩ := hasc
  have hrevperm : List.Perm asc.reverse (List.range scores.length) :=
    (List.reverse_perm asc).trans hperm
  have hlen : asc.reverse.length = scores.length := by
    simpa using hrevperm.length_eq
  have hrevsort : asc.reverse.Sorted
      (fun i j => scores.getD j 0 ≤ scores.getD i 0) :=
    List.pairwise_reverse.mpr hsort
  refine ⟨?_, ?_, ?_, ?_, ?_, rfl⟩
  · exact (hrevperm.nodup_iff.mpr (List.nodup_range _)).sublist
      (List.take_sublist _ _)
  · simp [bm25_topk_of_argsort, List.length_take, hlen]
  · intro i hi
    have h1 : i ∈ asc.reverse := List.take_subset _ _ hi
    have h2 := hrevperm.mem_iff.mp h1
    simpa using h2
  · exact hrevsort.sublist (List.take_sublist _ _)
  · intro i hi j hj hnj
    have hjmem : j ∈ asc.reverse :=
      hrevperm.mem_iff.mpr (List.mem_range.mpr hj)
    have hjmem2 : j ∈ asc.reverse.take topn ++ asc.reverse.drop topn := by
      rw [List.take_append_drop]
      exact hjmem
    have hjdrop : j ∈ asc.reverse.drop topn := by
      rcases List.mem_append.mp hjmem2 with h | h
      · exact absurd h hnj
      · exact h
    exact hrevsort.rel_of_mem_take_of_mem_drop hi hjdrop

/-- C9, witness: scores `[1, 3, 2]` with the admissible ascending argsort
`[0, 2, 1]`; the top-2 selection is `[1, 2]` (scores 3 and 2). -/
theorem C9_witness :
    isArgsortAsc [(1 : ℚ), 3, 2] [0, 2, 1] ∧
    ((bm25_topk_of_argsort [0, 2, 1] 2).Nodup ∧
      (bm25_topk_of_argsort [0, 2, 1] 2).length
        = min 2 ([(1 : ℚ), 3, 2] : List ℚ).length ∧
      (∀ i ∈ bm25_topk_of_argsort [0, 2, 1] 2,
        i < ([(1 : ℚ), 3, 2] : List ℚ).length) ∧
      (bm25_topk_of_argsort [0, 2, 1] 2).Sorted
        (fun i j => ([(1 : ℚ), 3, 2] : List ℚ).getD j 0
          ≤ ([(1 : ℚ), 3, 2] : List ℚ).getD i 0) ∧
      (∀ i ∈ bm25_topk_of_argsort [0, 2, 1] 2,
        ∀ j < ([(1 : ℚ), 3, 2] : List ℚ).length,
          j ∉ bm25_topk_of_argsort [0, 2, 1] 2 →
            ([(1 : ℚ), 3, 2] : List ℚ).getD j 0
              ≤ ([(1 : ℚ), 3, 2] : List ℚ).getD i 0) ∧
      _bm25_topk [(1 : ℚ), 3, 2] 2
        = bm25_topk_of_argsort
            (List.insertionSort (argsortLe [(1 : ℚ), 3, 2])
              (List.range ([(1 : ℚ), 3, 2] : List ℚ).length)) 2) :=
  ⟨⟨by decide, by decide⟩,
   C9_bm25_topk_spec [(1 : ℚ), 3, 2] 2 [0, 2, 1] ⟨by decide, by decide⟩⟩

/-!
## `rag.py` — balanced diversification (`_balanced_diversify`, lines 131-197)

A passage candidate is the transient tuple `(chunk index, score, chunk
text)`.  `sources[idx]` is modelled with a default for out-of-range indices;
the faithfulness hypotheses of the theorems keep all indices in range, which
is also the only situation in which the Python code does not raise.
-/

/-- Passage candidate `(chunk index, relevance score, chunk text)`. -/
abbrev Cand : Type := Nat × ℚ × String

/-- The source a candidate belongs to: `sources[cand[0]]`. -/
def candSrc (sources : List String) (c : Cand) : String :=
  sources.getD c.1 ""

/-- `by_source` grouping followed by `sorted(by_source.keys())`: the distinct
candidate sources in alphabetical order, each paired with its candidates in
candidate order. -/
def by_source_groups (sources : List String) (candidates : List Cand) :
    List (String × List Cand) :=
  (List.insertionSort pyStrLe ((candidates.map (candSrc sources)).dedup)).map
    (fun s => (s, candidates.filter (fun c => candSrc sources c = s)))

/-- One pass of the inner `for source in available_sources` loop: for each
source in order, stop when `k` slots are filled, otherwise append that
source's candidate of the current round, if it has one. -/
def bdRound (k round : Nat) :
    List (String × List Cand) → List Cand → List Cand
  | [], acc => acc
  | (_, cs) :: rest, acc =>
    if k ≤ acc.length then acc
    else
      match cs.get? round with
      | some c => bdRound k round rest (acc ++ [c])
      | none => bdRound k round rest acc

/-- The outer `while len(balanced) < k` loop.  `fuel` dominates the number of
rounds the Python loop can execute (each continuing round appends at least
one candidate, and the loop stops as soon as a round appends none). -/
def bdLoop (k : Nat) (groups : List (String × List Cand)) :
    Nat → Nat → List Cand → List Cand
  | 0, _, acc => acc
  | fuel + 1, round, acc =>
    if k ≤ acc.length then acc
    else
      let acc' := bdRound k round groups acc
      if acc'.length = acc.length then acc'
      else bdLoop k groups fuel (round + 1) acc'

/-- Embeds `_balanced_diversify` (rag.py lines 131-197). -/
def _balanced_diversify (candidates : List Cand) (sources : List String)
    (k : Nat) : List Cand :=
  let groups := by_source_groups sources candidates
  if groups.length = 0 then []
  else (bdLoop k groups (candidates.length + 2) 0 []).take k

/-- Number of result entries drawn from source `s`. -/
def countSrc (sources : List String) (s : String) (l : List Cand) : Nat :=
  (l.map (candSrc sources)).count s

lemma countSrc_append (sources : List String) (s : String) (l₁ l₂ : List Cand) :
    countSrc sources s (l₁ ++ l₂)
      = countSrc sources s l₁ + countSrc sources s l₂ := by
  simp [countSrc, List.count_append]

lemma countSrc_single (sources : List String) (s : String) (c : Cand) :
    countSrc sources s [c] = if candSrc sources c = s then 1 else 0 := by
  by_cases h : candSrc sources c = s <;>
    simp [countSrc, List.count_cons, List.count_nil, h]

lemma countSrc_sublist (sources : List String) (s : String)
    {l₁ l₂ : List Cand} (h : List.Sublist l₁ l₂) :
    countSrc sources s l₁ ≤ countSrc sources s l₂ :=
  List.Sublist.count_le (List.Sublist.map _ h) s

/-- Keys of the grouping are pairwise distinct. -/
lemma by_source_groups_keys_nodup (sources : List String)
    (candidates : List Cand) :
    ((by_source_groups sources candidates).map Prod.fst).Nodup := by
  unfold by_source_groups
  rw [List.map_map]
  have : (Prod.fst ∘ fun s =>
      (s, candidates.filter (fun c => candSrc sources c = s))) = id := by
    funext s
    rfl
  rw [this, List.map_id]
  exact ((List.perm_insertionSort _ _).nodup_iff).mpr (List.nodup_dedup _)

/-- Every candidate stored under a key belongs to that key's source. -/
lemma by_source_groups_coherent (sources : List String)
    (candidates : List Cand) :
    ∀ g ∈ by_source_groups sources candidates, ∀ c ∈ g.2,
      candSrc sources c = g.1 := by
  intro g hg c hc
  unfold by_source_groups at hg
  obtain ⟨s, _, rfl⟩ := List.mem_map.mp hg
  have h2 := (List.mem_filter.mp hc).2
  simpa using h2

/-- Every group is non-empty: its key is one of the candidates' sources. -/
lemma by_source_groups_nonempty (sources : List String)
    (candidates : List Cand) :
    ∀ g ∈ by_source_groups sources candidates, 1 ≤ g.2.length := by
  unfold by_source_groups
  intro g hg
  obtain ⟨s, hs, rfl⟩ := List.mem_map.mp hg
  have hs' : s ∈ (candidates.map (candSrc sources)).dedup :=
    (List.perm_insertionSort _ _).mem_iff.mp hs
  have hs'' : s ∈ candidates.map (candSrc sources) :=
    (List.mem_dedup).mp hs'
  obtain ⟨c, hc, rfl⟩ := List.mem_map.mp hs''
  have hmem : c ∈ candidates.filter
      (fun c' => candSrc sources c' = candSrc sources c) :=
    List.mem_filter.mpr ⟨hc, by simp⟩
  exact List.length_pos.mpr (List.ne_nil_of_mem hmem)

/-- The number of groups is the number of distinct candidate sources. -/
lemma by_source_groups_length (sources : List String)
    (candidates : List Cand) :
    (by_source_groups sources candidates).length
      = ((candidates.map (candSrc sources)).dedup).length := by
  unfold by_source_groups
  rw [List.length_map]
  exact (List.perm_insertionSort _ _).length_eq

/-- One round adds at most one candidate of any given source (at most one of
its key group's, and groups are keyed by distinct sources holding only
candidates of that source). -/
lemma bdRound_countSrc_le (sources : List String) (s : String) (k round : Nat) :
    ∀ (groups : List (String × List Cand)) (acc : List Cand),
      ((groups.map Prod.fst).Nodup) →
      (∀ g ∈ groups, ∀ c ∈ g.2, candSrc sources c = g.1) →
      countSrc sources s (bdRound k round groups acc)
        ≤ countSrc sources s acc
          + (if s ∈ groups.map Prod.fst then 1 else 0) := by
  intro groups
  induction groups with
  | nil =>
    intro acc _ _
    simp [bdRound]
  | cons g rest ih =>
    intro acc hK hE
    obtain ⟨s', cs⟩ := g
    rw [bdRound]
    by_cases hk : k ≤ acc.length
    · rw [if_pos hk]
      split <;> omega
    · rw [if_neg hk]
      have hKrest : ((rest.map Prod.fst).Nodup) :=
        (List.nodup_cons.mp (by simpa using hK)).2
      have hErest : ∀ g ∈ rest, ∀ c ∈ g.2, candSrc sources c = g.1 :=
        fun g hg => hE g (List.mem_cons_of_mem _ hg)
      cases hget : cs.get? round with
      | none =>
        have hsub : (if s ∈ rest.map Prod.fst then (1 : Nat) else 0)
            ≤ (if s ∈ ((s', cs) :: rest).map Prod.fst then 1 else 0) := by
          by_cases h : s ∈ rest.map Prod.fst
          · have h2 : s ∈ ((s', cs) :: rest).map Prod.fst := by
              simp only [List.map_cons, List.mem_cons]
              exact Or.inr h
            rw [if_pos h, if_pos h2]
          · rw [if_neg h]
            split <;> omega
        exact (ih acc hKrest hErest).trans (Nat.add_le_add_left hsub _)
      | some c =>
        have hcs : candSrc sources c = s' :=
          hE (s', cs) (List.mem_cons_self _ _) c (List.get?_mem hget)
        have := ih (acc ++ [c]) hKrest hErest
        refine this.trans ?_
        rw [countSrc_append, countSrc_single, hcs]
        by_cases hss : s' = s
        · subst hss
          have hnot : s' ∉ rest.map Prod.fst :=
            (List.nodup_cons.mp (by simpa using hK)).1
          simp [hnot]
        · have hiff : s ∈ ((s', cs) :: rest).map Prod.fst
              ↔ s ∈ rest.map Prod.fst := by
            simp only [List.map_cons, List.mem_cons]
            constructor
            · rintro (h | h)
              · exact absurd h.symm hss
              · exact h
            · exact Or.inr
          rw [if_neg hss]
          by_cases h : s ∈ rest.map Prod.fst
          · rw [if_pos h, if_pos (hiff.mpr h)]
          · rw [if_neg h, if_neg (fun hh => h (hiff.mp hh))]

/-- If every group still has a candidate at position `round`, a round grows
the accumulator to at least `min k (|acc| + number of groups)`. -/
lemma bdRound_length_ge (k round : Nat) :
    ∀ (groups : List (String × List Cand)) (acc : List Cand),
      (∀ g ∈ groups, round < g.2.length) →
      min k (acc.length + groups.length) ≤ (bdRound k round groups acc).length := by
  intro groups
  induction groups with
  | nil =>
    intro acc _
    simpa [bdRound] using Nat.min_le_right k acc.length
  | cons g rest ih =>
    intro acc hlen
    obtain ⟨s', cs⟩ := g
    rw [bdRound]
    by_cases hk : k ≤ acc.length
    · rw [if_pos hk]
      exact le_trans (Nat.min_le_left _ _) hk
    · rw [if_neg hk]
      have hr : round < cs.length := hlen (s', cs) (List.mem_cons_self _ _)
      have hc : cs.get? round = some (cs.get ⟨round, hr⟩) :=
        List.get?_eq_get hr
      rw [hc]
      have := ih (acc ++ [cs.get ⟨round, hr⟩])
        (fun g hg => hlen g (List.mem_cons_of_mem _ hg))
      refine le_trans ?_ this
      simp only [List.length_append, List.length_cons, List.length_singleton]
      omega

/-- The accumulator never shrinks across a round. -/
lemma bdRound_length_mono (k round : Nat) :
    ∀ (groups : List (String × List Cand)) (acc : List Cand),
      acc.length ≤ (bdRound k round groups acc).length := by
  intro groups
  induction groups with
  | nil =>
    intro acc
    simp [bdRound]
  | cons g rest ih =>
    intro acc
    obtain ⟨s', cs⟩ := g
    rw [bdRound]
    by_cases hk : k ≤ acc.length
    · rw [if_pos hk]
    · rw [if_neg hk]
      cases cs.get? round with
      | none => exact ih acc
      | some c =>
        refine le_trans ?_ (ih (acc ++ [c]))
        simp

/-- Master count bound for the round-robin loop: starting at `round` with an
accumulator already holding `min k (S * round)` entries, each source gains at
most `R - round` further entries, where every source has at least `R`
candidates and `R` rounds suffice to fill `k` slots (`k ≤ S * R`). -/
lemma bdLoop_countSrc_le (sources : List String) (s : String) (k : Nat)
    (groups : List (String × List Cand)) (R : Nat)
    (hK : (groups.map Prod.fst).Nodup)
    (hE : ∀ g ∈ groups, ∀ c ∈ g.2, candSrc sources c = g.1)
    (hR : ∀ g ∈ groups, R ≤ g.2.length)
    (hRS : k ≤ groups.length * R) :
    ∀ (fuel round : Nat) (acc : List Cand),
      min k (groups.length * round) ≤ acc.length →
      countSrc sources s (bdLoop k groups fuel round acc)
        ≤ countSrc sources s acc + (R - round) := by
  intro fuel
  induction fuel with
  | zero =>
    intro round acc _
    simp [bdLoop]
  | succ fuel ih =>
    intro round acc hinv
    rw [bdLoop]
    by_cases hk : k ≤ acc.length
    · rw [if_pos hk]
      omega
    · rw [if_neg hk]
      have hround : round < R := by
        by_contra hge
        push_neg at hge
        have h1 : groups.length * R ≤ groups.length * round :=
          Nat.mul_le_mul_left _ hge
        have h2 : k ≤ groups.length * round := le_trans hRS h1
        have h3 : min k (groups.length * round) = k := min_eq_left h2
        omega
      have hcount := bdRound_countSrc_le sources s k round groups acc hK hE
      have hcount1 : countSrc sources s (bdRound k round groups acc)
          ≤ countSrc sources s acc + 1 := by
        refine hcount.trans ?_
        split <;> omega
      by_cases heq : (bdRound k round groups acc).length = acc.length
      · rw [if_pos heq]
        omega
      · rw [if_neg heq]
        have hlen : min k (acc.length + groups.length)
            ≤ (bdRound k round groups acc).length :=
          bdRound_length_ge k round groups acc
            (fun g hg => lt_of_lt_of_le hround (hR g hg))
        have hinv' : min k (groups.length * (round + 1))
            ≤ (bdRound k round groups acc).length := by
          have hSr : groups.length * round ≤ acc.length := by
            rcases Nat.le_total k (groups.length * round) with h | h
            · have := min_eq_left h
              omega
            · have := min_eq_right h
              omega
          have : groups.length * (round + 1) ≤ acc.length + groups.length := by
            rw [Nat.mul_succ]
            omega
          exact le_trans (min_le_min le_rfl this) hlen
        have := ih (round + 1) (bdRound k round groups acc) hinv'
        refine this.trans ?_
        omega

/-- Master bound: if every source group has at least `R` candidates and `R`
rounds fill `k` slots, no source contributes more than `R` chunks. -/
lemma balanced_diversify_countSrc_le (candidates : List Cand)
    (sources : List String) (k R : Nat) (s : String)
    (hR : ∀ g ∈ by_source_groups sources candidates, R ≤ g.2.length)
    (hRS : k ≤ (by_source_groups sources candidates).length * R) :
    countSrc sources s (_balanced_diversify candidates sources k) ≤ R := by
  unfold _balanced_diversify
  by_cases hz : (by_source_groups sources candidates).length = 0
  · rw [if_pos hz]
    simp [countSrc]
  · rw [if_neg hz]
    have h := bdLoop_countSrc_le sources s k
      (by_source_groups sources candidates) R
      (by_source_groups_keys_nodup _ _) (by_source_groups_coherent _ _)
      hR hRS (candidates.length + 2) 0 [] (by simp)
    refine le_trans (countSrc_sublist _ _ (List.take_sublist _ _)) ?_
    simpa [countSrc] using h

/-- Candidates for the C4 counterexample: chunk indices 0-4 belong to
`a.txt`, 5 to `b.txt`, 6 to `c.txt`. -/
def cexCands4 : List Cand :=
  [(0, 0, "x"), (1, 0, "x"), (2, 0, "x"), (3, 0, "x"), (4, 0, "x"),
   (5, 0, "x"), (6, 0, "x")]

/-- Sources array for the C4 counterexample. -/
def cexSources4 : List String :=
  ["a.txt", "a.txt", "a.txt", "a.txt", "a.txt", "b.txt", "c.txt"]

/-- C4, counterexample.  The claim "`_balanced_diversify` never returns more
than `⌈k/S⌉ + 1` chunks from any single source" is false: with `k = 7`
slots, `S = 3` sources, where `a.txt` has five candidates and `b.txt`,
`c.txt` one each, `a.txt` contributes 5 chunks while `⌈7/3⌉ + 1 = 4` (once
small sources are exhausted, rounds keep drawing from the large one). -/
theorem C4_ceil_bound_violated :
    ((cexCands4.map (candSrc cexSources4)).dedup).length = 3 ∧
    countSrc cexSources4 "a.txt"
      (_balanced_diversify cexCands4 cexSources4 7) = 5 ∧
    (7 + 3 - 1) / 3 + 1 < 5 := by
  refine ⟨by decide, by decide, by decide⟩

/-- C4, amended.  For candidates whose chunk indices are in range (the only
case in which the Python code does not raise), with `S` the number of
distinct candidate sources: (i) when `S ≥ k` every source contributes at
most one chunk (the first round already fills all slots); (ii) provided
every source has at least `⌈k/S⌉` candidates, no source contributes more
than `⌈k/S⌉ + 1` chunks (in fact at most `⌈k/S⌉`); (iii) at most `k`
passages are returned.  Sources are cycled alphabetically one candidate per
round, as embodied in `bdRound`/`bdLoop`. -/
theorem C4_balanced_diversify_bounds (candidates : List Cand)
    (sources : List String) (k : Nat)
    (hin : ∀ c ∈ candidates, c.1 < sources.length) :
    (k ≤ ((candidates.map (candSrc sources)).dedup).length →
      ∀ s, countSrc sources s (_balanced_diversify candidates sources k) ≤ 1) ∧
    ((∀ g ∈ by_source_groups sources candidates,
        (k + ((candidates.map (candSrc sources)).dedup).length - 1)
          / ((candidates.map (candSrc sources)).dedup).length ≤ g.2.length) →
      ∀ s, countSrc sources s (_balanced_diversify candidates sources k)
        ≤ (k + ((candidates.map (candSrc sources)).dedup).length - 1)
            / ((candidates.map (candSrc sources)).dedup).length + 1) ∧
    (_balanced_diversify candidates sources k).length ≤ k := by
  refine ⟨?_, ?_, ?_⟩
  · intro hk s
    refine balanced_diversify_countSrc_le candidates sources k 1 s
      (by_source_groups_nonempty _ _) ?_
    rw [by_source_groups_length, Nat.mul_one]
    exact hk
  · intro hg s
    by_cases hS : ((candidates.map (candSrc sources)).dedup).length = 0
    · have hz : (by_source_groups sources candidates).length = 0 := by
        rw [by_source_groups_length, hS]
      have : _balanced_diversify candidates sources k = [] := by
        unfold _balanced_diversify
        rw [if_pos hz]
      rw [this]
      simp [countSrc]
    · have hS0 : 0 < ((candidates.map (candSrc sources)).dedup).length :=
        Nat.pos_of_ne_zero hS
      refine le_trans (balanced_diversify_countSrc_le candidates sources k
        ((k + ((candidates.map (candSrc sources)).dedup).length - 1)
          / ((candidates.map (candSrc sources)).dedup).length) s hg ?_)
        (Nat.le_succ _)
      rw [by_source_groups_length]
      have hq := Nat.div_add_mod
        (k + ((candidates.map (candSrc sources)).dedup).length - 1)
        ((candidates.map (candSrc sources)).dedup).length
      have hm := Nat.mod_lt
        (k + ((candidates.map (candSrc sources)).dedup).length - 1) hS0
      generalize h1 :
        (k + ((candidates.map (candSrc sources)).dedup).length - 1)
          % ((candidates.map (candSrc sources)).dedup).length = r at hq hm
      generalize h2 :
        ((candidates.map (candSrc sources)).dedup).length *
          ((k + ((candidates.map (candSrc sources)).dedup).length - 1)
            / ((candidates.map (candSrc sources)).dedup).length) = p at hq ⊢
      omega
  · unfold _balanced_diversify
    by_cases hz : (by_source_groups sources candidates).length = 0
    · rw [if_pos hz]
      exact Nat.zero_le _
    · rw [if_neg hz]
      exact le_trans (List.length_take_le _ _) le_rfl

/-- C4, witness for the amended theorem: two candidates from two distinct
sources, `k = 2`; every source contributes exactly one chunk and both bounds
hold. -/
theorem C4_witness :
    (∀ c ∈ ([(0, 0, "x"), (1, 0, "y")] : List Cand),
      c.1 < (["a.pdf", "b.pdf"] : List String).length) ∧
    ((2 ≤ ((([(0, 0, "x"), (1, 0, "y")] : List Cand).map
        (candSrc ["a.pdf", "b.pdf"])).dedup).length →
      ∀ s, countSrc ["a.pdf", "b.pdf"] s
        (_balanced_diversify [(0, 0, "x"), (1, 0, "y")] ["a.pdf", "b.pdf"] 2)
        ≤ 1) ∧
    ((∀ g ∈ by_source_groups ["a.pdf", "b.pdf"] [(0, 0, "x"), (1, 0, "y")],
        (2 + ((([(0, 0, "x"), (1, 0, "y")] : List Cand).map
          (candSrc ["a.pdf", "b.pdf"])).dedup).length - 1)
          / ((([(0, 0, "x"), (1, 0, "y")] : List Cand).map
            (candSrc ["a.pdf", "b.pdf"])).dedup).length ≤ g.2.length) →
      ∀ s, countSrc ["a.pdf", "b.pdf"] s
        (_balanced_diversify [(0, 0, "x"), (1, 0, "y")] ["a.pdf", "b.pdf"] 2)
        ≤ (2 + ((([(0, 0, "x"), (1, 0, "y")] : List Cand).map
            (candSrc ["a.pdf", "b.pdf"])).dedup).length - 1)
            / ((([(0, 0, "x"), (1, 0, "y")] : List Cand).map
              (candSrc ["a.pdf", "b.pdf"])).dedup).length + 1) ∧
    (_balanced_diversify [(0, 0, "x"), (1, 0, "y")]
        ["a.pdf", "b.pdf"] 2).length ≤ 2) :=
  ⟨by decide,
   C4_balanced_diversify_bounds [(0, 0, "x"), (1, 0, "y")] ["a.pdf", "b.pdf"] 2
     (by decide)⟩

/-!
## `enhanced_retrieval.py` — cross-encoder rerank
(`CrossEncoderReranker.rerank`, lines 181-186)

```python
def rerank(self, query, passages, top_k):
    if not self.model or not passages: return passages[:top_k]
    pairs = [[query, p[2]] for p in passages[: min(64, len(passages))]]
    scores = self.model.predict(pairs)
    order = np.argsort(scores)[::-1]
    return [passages[i] for i in order[:top_k]]
```
The cross-encoder model is abstracted as an optional scoring function
`rerankScore : Option (String → String → ℚ)` (query, passage text ↦ score);
`none` models the unavailable-model fallback.
-/

/-- Embeds `CrossEncoderReranker.rerank`. -/
def rerankModel (rerankScore : Option (String → String → ℚ)) (query : String)
    (passages : List Cand) (top_k : Nat) : List Cand :=
  match rerankScore with
  | none => passages.take top_k
  | some f =>
    if passages.isEmpty then passages.take top_k
    else
      let pairs := passages.take (min 64 passages.length)
      let order := argsortDesc (pairs.map (fun p => f query p.2.2))
      (order.take top_k).filterMap (fun i => passages.get? i)

/-!
## `rag.py` — hybrid search (`search`, lines 199-300)

External components are abstracted as inputs:
* `vecPairs : List (Int × ℚ)` — the id/distance pairs FAISS returns for the
  query (`zip(I[0], D[0])`; FAISS pads with id `-1`, which the source
  filters out with `int(i) >= 0`);
* `bm25Scores : List ℚ` — `bm25.get_scores(...)`, one score per chunk;
* `rerankScore` — the cross-encoder, as in `rerankModel`.
-/

/-- The `seen`-set merge of step 3: union preserving order (vector
candidates first), de-duplicated by chunk index. -/
def dedupByIdx : List Cand → List Nat → List Cand
  | [], _ => []
  | c :: rest, seen =>
    if c.1 ∈ seen then dedupByIdx rest seen
    else c :: dedupByIdx rest (c.1 :: seen)

/-- Step 5's forced inclusion: append each of the document's chunk indices
that the vector/BM25 stages missed, at placeholder score `0.1`. -/
def forceInclude (chunks : List String) : List Nat → List Cand → List Cand
  | [], merged => merged
  | i :: rest, merged =>
    if i ∈ merged.map (fun c => c.1) then forceInclude chunks rest merged
    else forceInclude chunks rest
      (merged ++ [(i, (1 : ℚ)/10, chunks.getD i "")])

/-- `doc_indices` membership test: `s and (s.lower() == fs or fs in
s.lower())` (`fs` is already lower-cased and stripped). -/
def srcMatches (fs s : String) : Bool :=
  (s ≠ "") && (pyLower s == fs || strContainsSub (pyLower s) fs)

/-- The `exact` filter test: `(sources[c[0]] or "").lower() == fs or fs in
(sources[c[0]] or "").lower()`. -/
def srcMatchesExact (fs s : String) : Bool :=
  pyLower s == fs || strContainsSub (pyLower s) fs

/-- `if filter_source and filter_source.strip() and sources:`. -/
def filterActive (filter_source : Option String) (sources : List String) :
    Bool :=
  match filter_source with
  | none => false
  | some fs => (fs ≠ "") && (pyStrip fs ≠ "") && !sources.isEmpty

/-- `search_in_corpus = not filter_source or not filter_source.strip()`. -/
def searchInCorpus (filter_source : Option String) : Bool :=
  match filter_source with
  | none => true
  | some fs => fs == "" || pyStrip fs == ""

/-- Embeds `search` (rag.py lines 199-300): hybrid merge, per-document
filter with forced inclusion, balanced diversification, cross-encoder rerank
and truncation to `k`. -/
def search (chunks sources : List String) (vecPairs : List (Int × ℚ))
    (bm25Scores : List ℚ) (query : String) (k : Nat)
    (filter_source : Option String) (diversify : Bool)
    (rerankScore : Option (String → String → ℚ)) : List Cand :=
  if chunks.isEmpty then []
  else
    let vec_cands := vecPairs.filterMap (fun p =>
      if 0 ≤ p.1 then some (p.1.toNat, p.2, chunks.getD p.1.toNat "")
      else none)
    let topn := min (max (k * 6) 60) chunks.length
    let bm25_cands := (_bm25_topk bm25Scores topn).map
      (fun i => (i, (0 : ℚ), chunks.getD i ""))
    let merged := dedupByIdx (vec_cands ++ bm25_cands) []
    if filterActive filter_source sources then
      let fs := pyLower (pyStrip (filter_source.getD ""))
      let doc_indices := (List.range sources.length).filter
        (fun i => srcMatches fs (sources.getD i ""))
      if doc_indices.isEmpty then []
      else
        let merged1 := forceInclude chunks doc_indices merged
        let exact := merged1.filter
          (fun c => srcMatchesExact fs (sources.getD c.1 ""))
        let merged2 :=
          if exact.isEmpty then
            (doc_indices.take (min k doc_indices.length)).map
              (fun i => (i, (1 : ℚ)/2, chunks.getD i ""))
          else exact
        (rerankModel rerankScore query merged2 k).take k
    else
      let merged3 :=
        if diversify && !sources.isEmpty && searchInCorpus filter_source
            && decide (1 < sources.dedup.length) then
          _balanced_diversify (merged.take (min (k * 10) merged.length))
            sources k
        else merged
      (rerankModel rerankScore query merged3 k).take k

/-! ### Duplicate-freedom of the search pipeline -/

lemma dedupByIdx_nodup : ∀ (l : List Cand) (seen : List Nat),
    ((dedupByIdx l seen).map (fun c => c.1)).Nodup ∧
    ∀ i ∈ seen, i ∉ (dedupByIdx l seen).map (fun c => c.1) := by
  intro l
  induction l with
  | nil =>
    intro seen
    simp [dedupByIdx]
  | cons c rest ih =>
    intro seen
    rw [dedupByIdx]
    by_cases h : c.1 ∈ seen
    · rw [if_pos h]
      exact ⟨(ih seen).1, (ih seen).2⟩
    · rw [if_neg h]
      constructor
      · simp only [List.map_cons, List.nodup_cons]
        exact ⟨(ih (c.1 :: seen)).2 c.1 (List.mem_cons_self _ _),
          (ih (c.1 :: seen)).1⟩
      · intro i hi
        simp only [List.map_cons, List.mem_cons, not_or]
        constructor
        · rintro rfl
          exact h hi
        · exact (ih (c.1 :: seen)).2 i (List.mem_cons_of_mem _ hi)

lemma forceInclude_nodup (chunks : List String) :
    ∀ (is' : List Nat) (merged : List Cand),
      ((merged.map (fun c => c.1)).Nodup) →
      ((forceInclude chunks is' merged).map (fun c => c.1)).Nodup := by
  intro is'
  induction is' with
  | nil =>
    intro merged h
    simpa [forceInclude] using h
  | cons i rest ih =>
    intro merged h
    rw [forceInclude]
    by_cases hm : i ∈ merged.map (fun c => c.1)
    · rw [if_pos hm]
      exact ih merged h
    · rw [if_neg hm]
      refine ih _ ?_
      rw [List.map_append]
      refine List.Nodup.append h (by simp) ?_
      intro a ha hb
      simp only [List.map_cons, List.map_nil, List.mem_singleton] at hb
      subst hb
      exact hm ha

/-- Selecting entries of an index-duplicate-free list at pairwise-distinct
positions yields an index-duplicate-free list. -/
lemma nodup_filterMap_getElem (l : List Cand) :
    ∀ (pos : List Nat), pos.Nodup → ((l.map (fun c => c.1)).Nodup) →
      (((pos.filterMap (fun i => l.get? i)).map (fun c => c.1)).Nodup) := by
  intro pos
  induction pos with
  | nil =>
    intro _ _
    simp
  | cons p ps ih =>
    intro hpos h
    rw [List.filterMap_cons]
    cases hp : l.get? p with
    | none => exact ih (List.nodup_cons.mp hpos).2 h
    | some c =>
      simp only [List.map_cons, List.nodup_cons]
      refine ⟨?_, ih (List.nodup_cons.mp hpos).2 h⟩
      intro hmem
      obtain ⟨c', hc', hcc⟩ := List.mem_map.mp hmem
      obtain ⟨q, hq, hq2⟩ := List.mem_filterMap.mp hc'
      have hpq : p ≠ q := fun hh => (List.nodup_cons.mp hpos).1 (hh ▸ hq)
      have h1 : (l.map (fun c => c.1)).get? p = some c.1 := by
        rw [List.get?_map, hp]
        rfl
      have h2 : (l.map (fun c => c.1)).get? q = some c'.1 := by
        rw [List.get?_map, hq2]
        rfl
      have hplen : p < (l.map (fun c => c.1)).length :=
        List.get?_eq_some.mp h1 |>.1
      have : p = q := by
        apply List.getElem?_inj hplen h
        rw [← List.get?_eq_getElem?, ← List.get?_eq_getElem?, h1, h2, hcc]
      exact hpq this

lemma rerankModel_nodup (rs : Option (String → String → ℚ)) (q : String)
    (top_k : Nat) (ps : List Cand) (h : (ps.map (fun c => c.1)).Nodup) :
    ((rerankModel rs q ps top_k).map (fun c => c.1)).Nodup := by
  cases rs with
  | none =>
    exact h.sublist (List.Sublist.map _ (List.take_sublist _ _))
  | some f =>
    rw [rerankModel]
    by_cases hemp : ps.isEmpty
    · rw [if_pos hemp]
      exact h.sublist (List.Sublist.map _ (List.take_sublist _ _))
    · rw [if_neg hemp]
      exact nodup_filterMap_getElem ps _
        ((argsortDesc_nodup _).sublist (List.take_sublist _ _)) h

lemma rerankModel_mem (rs : Option (String → String → ℚ)) (q : String)
    (top_k : Nat) (ps : List Cand) :
    ∀ c ∈ rerankModel rs q ps top_k, c ∈ ps := by
  cases rs with
  | none =>
    exact fun c hc => List.take_subset _ _ hc
  | some f =>
    rw [rerankModel]
    by_cases hemp : ps.isEmpty
    · rw [if_pos hemp]
      exact fun c hc => List.take_subset _ _ hc
    · rw [if_neg hemp]
      intro c hc
      obtain ⟨i, _, hi2⟩ := List.mem_filterMap.mp hc
      exact List.get?_mem hi2

lemma rerankModel_ne_nil (rs : Option (String → String → ℚ)) (q : String)
    (top_k : Nat) (ps : List Cand) (hps : ps ≠ []) (hk : 1 ≤ top_k) :
    rerankModel rs q ps top_k ≠ [] := by
  have hpos : 0 < ps.length := List.length_pos.mpr hps
  cases rs with
  | none =>
    simp only [rerankModel]
    intro h
    rcases List.take_eq_nil_iff.mp h with h | h
    · omega
    · exact hps h
  | some f =>
    rw [rerankModel]
    have hemp : ¬ (ps.isEmpty = true) := by
      simp [List.isEmpty_iff, hps]
    rw [if_neg hemp]
    intro hnil
    simp only [] at hnil
    have hlen : (argsortDesc ((ps.take (min 64 ps.length)).map
        (fun p => f q p.2.2))).length = min 64 ps.length := by
      rw [(argsortDesc_perm _).length_eq]
      simp [List.length_take]
    have htl : (argsortDesc ((ps.take (min 64 ps.length)).map
        (fun p => f q p.2.2))).take top_k ≠ [] := by
      intro h
      rcases List.take_eq_nil_iff.mp h with h | h
      · omega
      · rw [h] at hlen
        simp only [List.length_nil] at hlen
        omega
    obtain ⟨i, rest, heq⟩ := List.exists_cons_of_ne_nil htl
    have himem0 : i ∈ (argsortDesc ((ps.take (min 64 ps.length)).map
        (fun p => f q p.2.2))).take top_k := by
      rw [heq]
      exact List.mem_cons_self _ _
    have hget := List.forall_none_of_filterMap_eq_nil hnil i himem0
    have hibound := argsortDesc_mem _ (List.take_subset _ _ himem0)
    rw [List.length_map, List.length_take] at hibound
    have := List.get?_eq_none.mp hget
    omega

/-- Each group's candidate list is a sublist of the candidate pool. -/
lemma by_source_groups_sublist (sources : List String)
    (candidates : List Cand) :
    ∀ g ∈ by_source_groups sources candidates, List.Sublist g.2 candidates := by
  intro g hg
  unfold by_source_groups at hg
  obtain ⟨s, _, rfl⟩ := List.mem_map.mp hg
  exact List.filter_sublist _

/-- One `bdRound` preserves index-duplicate-freedom and only adds the
current round's pick of some group. -/
lemma bdRound_nodup (sources : List String) (k round : Nat) :
    ∀ (groups : List (String × List Cand)) (acc : List Cand),
      (∀ g ∈ groups, ∀ c ∈ g.2, candSrc sources c = g.1) →
      ((groups.map Prod.fst).Nodup) →
      ((acc.map (fun c => c.1)).Nodup) →
      (∀ g ∈ groups, ∀ c, g.2.get? round = some c →
        c.1 ∉ acc.map (fun c => c.1)) →
      ((bdRound k round groups acc).map (fun c => c.1)).Nodup ∧
      (∀ x ∈ bdRound k round groups acc,
        x ∈ acc ∨ ∃ g ∈ groups, g.2.get? round = some x) := by
  intro groups
  induction groups with
  | nil =>
    intro acc _ _ hC _
    exact ⟨hC, fun x hx => Or.inl hx⟩
  | cons g rest ih =>
    intro acc hE hK hC hD
    obtain ⟨s', cs⟩ := g
    rw [bdRound]
    by_cases hk : k ≤ acc.length
    · rw [if_pos hk]
      exact ⟨hC, fun x hx => Or.inl hx⟩
    · rw [if_neg hk]
      have hErest : ∀ g ∈ rest, ∀ c ∈ g.2, candSrc sources c = g.1 :=
        fun g hg => hE g (List.mem_cons_of_mem _ hg)
      have hKrest : ((rest.map Prod.fst).Nodup) :=
        (List.nodup_cons.mp (by simpa using hK)).2
      cases hget : cs.get? round with
      | none =>
        have hDrest : ∀ g ∈ rest, ∀ c, g.2.get? round = some c →
            c.1 ∉ acc.map (fun c => c.1) :=
          fun g hg => hD g (List.mem_cons_of_mem _ hg)
        obtain ⟨hn, hm⟩ := ih acc hErest hKrest hC hDrest
        refine ⟨hn, fun x hx => ?_⟩
        rcases hm x hx with h | ⟨g, hg, hgget⟩
        · exact Or.inl h
        · exact Or.inr ⟨g, List.mem_cons_of_mem _ hg, hgget⟩
      | some c =>
        have hcacc : c.1 ∉ acc.map (fun c => c.1) :=
          hD (s', cs) (List.mem_cons_self _ _) c hget
        have hC' : (((acc ++ [c]).map (fun c => c.1)).Nodup) := by
          rw [List.map_append]
          refine List.Nodup.append hC (by simp) ?_
          intro a ha hb
          simp only [List.map_cons, List.map_nil, List.mem_singleton] at hb
          subst hb
          exact hcacc ha
        have hD' : ∀ g ∈ rest, ∀ c', g.2.get? round = some c' →
            c'.1 ∉ (acc ++ [c]).map (fun c => c.1) := by
          intro g hg c' hget'
          have h1 : c'.1 ∉ acc.map (fun c => c.1) :=
            hD g (List.mem_cons_of_mem _ hg) c' hget'
          have hne : c'.1 ≠ c.1 := by
            intro hcc
            have hsx : candSrc sources c' = g.1 :=
              hErest g hg c' (List.get?_mem hget')
            have hsc : candSrc sources c = s' :=
              hE (s', cs) (List.mem_cons_self _ _) c (List.get?_mem hget)
            have hsame : candSrc sources c' = candSrc sources c := by
              unfold candSrc
              rw [hcc]
            have : g.1 = s' := by rw [← hsx, hsame, hsc]
            have hmem : s' ∈ rest.map Prod.fst :=
              this ▸ List.mem_map_of_mem Prod.fst hg
            exact (List.nodup_cons.mp (by simpa using hK)).1 hmem
          rw [List.map_append]
          intro hmem
          rcases List.mem_append.mp hmem with h | h
          · exact h1 h
          · simp only [List.map_cons, List.map_nil,
              List.mem_singleton] at h
            exact hne h
        obtain ⟨hn, hm⟩ := ih (acc ++ [c]) hErest hKrest hC' hD'
        refine ⟨hn, fun x hx => ?_⟩
        rcases hm x hx with h | ⟨g, hg, hgget⟩
        · rcases List.mem_append.mp h with h | h
          · exact Or.inl h
          · simp only [List.mem_singleton] at h
            subst h
            exact Or.inr ⟨(s', cs), List.mem_cons_self _ _, hget⟩
        · exact Or.inr ⟨g, List.mem_cons_of_mem _ hg, hgget⟩

/-- The whole round-robin loop keeps chunk indices pairwise distinct. -/
lemma bdLoop_nodup (sources : List String) (k : Nat)
    (groups : List (String × List Cand))
    (hE : ∀ g ∈ groups, ∀ c ∈ g.2, candSrc sources c = g.1)
    (hK : (groups.map Prod.fst).Nodup)
    (hA : ∀ g ∈ groups, (g.2.map (fun c => c.1)).Nodup) :
    ∀ (fuel round : Nat) (acc : List Cand),
      ((acc.map (fun c => c.1)).Nodup) →
      (∀ g ∈ groups, ∀ j, round ≤ j → ∀ c, g.2.get? j = some c →
        c.1 ∉ acc.map (fun c => c.1)) →
      ((bdLoop k groups fuel round acc).map (fun c => c.1)).Nodup := by
  intro fuel
  induction fuel with
  | zero =>
    intro round acc hC _
    simpa [bdLoop] using hC
  | succ fuel ih =>
    intro round acc hC hD
    rw [bdLoop]
    by_cases hk : k ≤ acc.length
    · rw [if_pos hk]
      exact hC
    · rw [if_neg hk]
      obtain ⟨hn, hm⟩ := bdRound_nodup sources k round groups acc hE hK hC
        (fun g hg c hget => hD g hg round le_rfl c hget)
      by_cases heq : (bdRound k round groups acc).length = acc.length
      · rw [if_pos heq]
        exact hn
      · rw [if_neg heq]
        refine ih (round + 1) (bdRound k round groups acc) hn ?_
        intro g hg j hj c hget hmem
        obtain ⟨x, hx, hxi⟩ := List.mem_map.mp hmem
        rcases hm x hx with hxacc | ⟨g', hg', hget'⟩
        · exact hD g hg j (by omega) c hget (List.mem_map.mpr ⟨x, hxacc, hxi⟩)
        · have hsx : candSrc sources x = g'.1 :=
            hE g' hg' x (List.get?_mem hget')
          have hsc : candSrc sources c = g.1 :=
            hE g hg c (List.get?_mem hget)
          have hsame : candSrc sources x = candSrc sources c := by
            unfold candSrc
            rw [hxi]
          have hgg : g'.1 = g.1 := by rw [← hsx, hsame, hsc]
          have hgg' : g' = g := List.inj_on_of_nodup_map hK hg' hg hgg
          subst hgg'
          have h1 : (g'.2.map (fun c => c.1)).get? round = some x.1 := by
            rw [List.get?_map, hget']
            rfl
          have h2 : (g'.2.map (fun c => c.1)).get? j = some c.1 := by
            rw [List.get?_map, hget]
            rfl
          have hlen : round < (g'.2.map (fun c => c.1)).length :=
            (List.get?_eq_some.mp h1).1
          have : round = j := by
            apply List.getElem?_inj hlen (hA g' hg')
            rw [← List.get?_eq_getElem?, ← List.get?_eq_getElem?, h1, h2, hxi]
          omega

/-- `_balanced_diversify` preserves index-duplicate-freedom. -/
lemma balanced_diversify_nodup (candidates : List Cand)
    (sources : List String) (k : Nat)
    (h : (candidates.map (fun c => c.1)).Nodup) :
    ((_balanced_diversify candidates sources k).map (fun c => c.1)).Nodup := by
  unfold _balanced_diversify
  by_cases hz : (by_source_groups sources candidates).length = 0
  · rw [if_pos hz]
    simp
  · rw [if_neg hz]
    refine List.Nodup.sublist (List.Sublist.map _ (List.take_sublist _ _)) ?_
    exact bdLoop_nodup sources k _ (by_source_groups_coherent _ _)
      (by_source_groups_keys_nodup _ _)
      (fun g hg => h.sublist
        (List.Sublist.map _ (by_source_groups_sublist _ _ g hg)))
      _ 0 [] (by simp) (by simp)

/-- The tail of the per-document filter branch of `search` keeps chunk
indices pairwise distinct, for any merged pool and document index list. -/
lemma search_filter_tail_nodup (chunks sources : List String) (fsl : String)
    (k : Nat) (query : String) (rs : Option (String → String → ℚ))
    (merged : List Cand) (hm : (merged.map (fun c => c.1)).Nodup)
    (docIdx : List Nat) (hd : docIdx.Nodup) :
    (((rerankModel rs query
        (if ((forceInclude chunks docIdx merged).filter
            (fun c => srcMatchesExact fsl (sources.getD c.1 ""))).isEmpty then
          (docIdx.take (min k docIdx.length)).map
            (fun i => ((i, (1 : ℚ)/2, chunks.getD i "") : Cand))
        else (forceInclude chunks docIdx merged).filter
          (fun c => srcMatchesExact fsl (sources.getD c.1 ""))) k).take k).map
      (fun c => c.1)).Nodup := by
  refine List.Nodup.sublist (List.Sublist.map _ (List.take_sublist _ _)) ?_
  refine rerankModel_nodup _ _ _ _ ?_
  split
  · rw [List.map_map]
    have hcomp : ((fun c => c.1) ∘ fun i =>
        ((i, (1 : ℚ)/2, chunks.getD i "") : Cand)) = id := by
      funext i
      rfl
    rw [hcomp, List.map_id]
    exact hd.sublist (List.take_sublist _ _)
  · refine List.Nodup.sublist (List.Sublist.map _ (List.filter_sublist _)) ?_
    exact forceInclude_nodup chunks _ _ hm

/-- The tail of the whole-corpus branch of `search` keeps chunk indices
pairwise distinct. -/
lemma search_corpus_tail_nodup (sources : List String) (k e : Nat)
    (query : String) (rs : Option (String → String → ℚ)) (cond : Bool)
    (merged : List Cand) (hm : (merged.map (fun c => c.1)).Nodup) :
    (((rerankModel rs query
        (if cond then _balanced_diversify (merged.take e) sources k
         else merged) k).take k).map (fun c => c.1)).Nodup := by
  refine List.Nodup.sublist (List.Sublist.map _ (List.take_sublist _ _)) ?_
  refine rerankModel_nodup _ _ _ _ ?_
  split
  · exact balanced_diversify_nodup _ _ _
      (hm.sublist (List.Sublist.map _ (List.take_sublist _ _)))
  · exact hm

/-- C10, confirmed.  For every corpus, query abstraction, `k`,
`filter_source` and `diversify` setting, the passage list returned by
`search` contains pairwise-distinct chunk indices: the merge step
de-duplicates by chunk index, forced inclusion only appends unseen indices,
and filtering, diversification and reranking select distinct elements of the
merged list. -/
theorem C10_search_distinct_indices (chunks sources : List String)
    (vecPairs : List (Int × ℚ)) (bm25Scores : List ℚ) (query : String)
    (k : Nat) (filter_source : Option String) (diversify : Bool)
    (rerankScore : Option (String → String → ℚ)) :
    ((search chunks sources vecPairs bm25Scores query k filter_source
        diversify rerankScore).map (fun c => c.1)).Nodup := by
  unfold search
  by_cases hc : chunks.isEmpty
  · rw [if_pos hc]
    simp
  · rw [if_neg hc]
    by_cases hact : filterActive filter_source sources
    · rw [if_pos hact]
      by_cases hdoc : (((List.range sources.length).filter (fun i =>
          srcMatches (pyLower (pyStrip (filter_source.getD "")))
            (sources.getD i ""))).isEmpty)
      · rw [if_pos hdoc]
        simp
      · rw [if_neg hdoc]
        exact search_filter_tail_nodup chunks sources _ k query rerankScore
          _ (dedupByIdx_nodup _ []).1 _ ((List.nodup_range _).filter _)
    · rw [if_neg hact]
      exact search_corpus_tail_nodup sources k _ query rerankScore _
        _ (dedupByIdx_nodup _ []).1

/-- Helper: a `doc_indices` match implies an `exact`-filter match. -/
lemma srcMatches_imp_exact (fs s : String)
    (h : srcMatches fs s = true) : srcMatchesExact fs s = true := by
  unfold srcMatches at h
  unfold srcMatchesExact
  rw [Bool.and_eq_true] at h
  exact h.2

/-- C3, counterexample.  The claim "`search(filter_source=X)` returns only
chunks belonging to `X`, never a chunk of any other document, and returns
the empty list when `X` has zero indexed chunks" is false: the filter
matches by case-insensitive *substring* (`fs in s.lower()`), so with a
corpus whose only document is `aa.pdf`, `search` with
`filter_source="a.pdf"` returns `aa.pdf`'s chunk even though the document
`a.pdf` has zero indexed chunks. -/
theorem C3_substring_filter_leaks :
    search ["c0"] ["aa.pdf"] [] [0] "" 1 (some "a.pdf") true none
      = [(0, 0, "c0")] ∧
    (["aa.pdf"] : List String).getD 0 "" ≠ "a.pdf" := by
  constructor
  · decide
  · decide

/-- The tail of the per-document filter branch of `search` returns at most
`k` passages, all of whose sources pass the `exact` match test, provided
every document index matches; and when `k ≥ 1` and a document index matched,
the result is non-empty. -/
lemma search_filter_tail_spec (chunks sources : List String) (fsl : String)
    (k : Nat) (query : String) (rs : Option (String → String → ℚ))
    (merged : List Cand) (docIdx : List Nat)
    (hmatch : ∀ i ∈ docIdx, srcMatches fsl (sources.getD i "") = true) :
    ((rerankModel rs query
        (if ((forceInclude chunks docIdx merged).filter
            (fun c => srcMatchesExact fsl (sources.getD c.1 ""))).isEmpty then
          (docIdx.take (min k docIdx.length)).map
            (fun i => ((i, (1 : ℚ)/2, chunks.getD i "") : Cand))
        else (forceInclude chunks docIdx merged).filter
          (fun c => srcMatchesExact fsl (sources.getD c.1 ""))) k).take
      k).length ≤ k ∧
    (∀ c ∈ (rerankModel rs query
        (if ((forceInclude chunks docIdx merged).filter
            (fun c => srcMatchesExact fsl (sources.getD c.1 ""))).isEmpty then
          (docIdx.take (min k docIdx.length)).map
            (fun i => ((i, (1 : ℚ)/2, chunks.getD i "") : Cand))
        else (forceInclude chunks docIdx merged).filter
          (fun c => srcMatchesExact fsl (sources.getD c.1 ""))) k).take k,
      srcMatchesExact fsl (sources.getD c.1 "") = true) ∧
    (1 ≤ k → docIdx ≠ [] →
      (rerankModel rs query
        (if ((forceInclude chunks docIdx merged).filter
            (fun c => srcMatchesExact fsl (sources.getD c.1 ""))).isEmpty then
          (docIdx.take (min k docIdx.length)).map
            (fun i => ((i, (1 : ℚ)/2, chunks.getD i "") : Cand))
        else (forceInclude chunks docIdx merged).filter
          (fun c => srcMatchesExact fsl (sources.getD c.1 ""))) k).take k
        ≠ []) := by
  refine ⟨List.length_take_le _ _, ?_, ?_⟩
  · intro c hcmem
    have hc1 := List.take_subset _ _ hcmem
    have hc2 := rerankModel_mem rs query k _ c hc1
    by_cases hex : ((forceInclude chunks docIdx merged).filter
        (fun c => srcMatchesExact fsl (sources.getD c.1 ""))).isEmpty
    · rw [if_pos hex] at hc2
      obtain ⟨i, hi, rfl⟩ := List.mem_map.mp hc2
      exact srcMatches_imp_exact _ _ (hmatch i (List.take_subset _ _ hi))
    · rw [if_neg hex] at hc2
      have := (List.mem_filter.mp hc2).2
      simpa using this
  · intro hk hdoc
    have hm2 : (if ((forceInclude chunks docIdx merged).filter
        (fun c => srcMatchesExact fsl (sources.getD c.1 ""))).isEmpty then
          (docIdx.take (min k docIdx.length)).map
            (fun i => ((i, (1 : ℚ)/2, chunks.getD i "") : Cand))
        else (forceInclude chunks docIdx merged).filter
          (fun c => srcMatchesExact fsl (sources.getD c.1 ""))) ≠ [] := by
      by_cases hex : ((forceInclude chunks docIdx merged).filter
          (fun c => srcMatchesExact fsl (sources.getD c.1 ""))).isEmpty
      · rw [if_pos hex]
        intro h
        have hlen := congrArg List.length h
        simp only [List.length_map, List.length_take, List.length_nil]
          at hlen
        have hpos : 0 < docIdx.length := List.length_pos.mpr hdoc
        omega
      · rw [if_neg hex]
        intro h
        exact hex (by rw [h]; rfl)
    have h1 := rerankModel_ne_nil rs query k _ hm2 hk
    intro h
    rcases List.take_eq_nil_iff.mp h with h | h
    · omega
    · exact h1 h

/-- C3, amended.  For a non-empty `filter_source` (non-blank after
stripping) on a non-empty sources array, `search` returns at most `k`
passages, each of whose source *matches* the stripped lower-cased filter —
where "matches" means case-insensitive equality **or substring
containment** — it returns the empty list when no indexed chunk's source
matches (rather than when the named document has zero chunks), and
conversely, when some source matches, the corpus is non-empty and `k ≥ 1`,
the result is non-empty (for `k = 0` the final `ranked[:k]` truncation
returns `[]` even when sources match). -/
theorem C3_search_filter_spec (chunks sources : List String)
    (vecPairs : List (Int × ℚ)) (bm25Scores : List ℚ) (query : String)
    (k : Nat) (fs : String) (diversify : Bool)
    (rerankScore : Option (String → String → ℚ))
    (hfs1 : fs ≠ "") (hfs2 : pyStrip fs ≠ "") (hsrc : sources ≠ []) :
    (search chunks sources vecPairs bm25Scores query k (some fs) diversify
      rerankScore).length ≤ k ∧
    (∀ c ∈ search chunks sources vecPairs bm25Scores query k (some fs)
        diversify rerankScore,
      srcMatchesExact (pyLower (pyStrip fs)) (sources.getD c.1 "") = true) ∧
    ((((List.range sources.length).filter (fun i =>
        srcMatches (pyLower (pyStrip fs)) (sources.getD i ""))).isEmpty
          = true) →
      search chunks sources vecPairs bm25Scores query k (some fs) diversify
        rerankScore = []) ∧
    (chunks ≠ [] → 1 ≤ k →
      (∃ i, i < sources.length ∧
        srcMatches (pyLower (pyStrip fs)) (sources.getD i "") = true) →
      search chunks sources vecPairs bm25Scores query k (some fs) diversify
        rerankScore ≠ []) := by
  have hact : filterActive (some fs) sources = true := by
    unfold filterActive
    simp only [Bool.and_eq_true, decide_eq_true_eq, Bool.not_eq_true']
    exact ⟨⟨hfs1, hfs2⟩, by simpa [List.isEmpty_iff] using hsrc⟩
  unfold search
  by_cases hc : chunks.isEmpty
  · rw [if_pos hc]
    exact ⟨by simp, by simp, fun _ => rfl,
      fun hne _ _ => absurd (List.isEmpty_iff.mp hc) hne⟩
  · rw [if_neg hc, if_pos hact]
    by_cases hdoc : (((List.range sources.length).filter (fun i =>
        srcMatches (pyLower (pyStrip ((some fs).getD "")))
          (sources.getD i ""))).isEmpty)
    · rw [if_pos hdoc]
      refine ⟨by simp, by simp, fun _ => rfl, ?_⟩
      rintro _ _ ⟨i, hi, hm⟩
      have hmem : i ∈ (List.range sources.length).filter
          (fun i => srcMatches (pyLower (pyStrip ((some fs).getD "")))
            (sources.getD i "")) :=
        List.mem_filter.mpr ⟨List.mem_range.mpr hi, hm⟩
      rw [List.isEmpty_iff.mp hdoc] at hmem
      exact fun _ => List.not_mem_nil i hmem
    · rw [if_neg hdoc]
      have hspec := search_filter_tail_spec chunks sources
        (pyLower (pyStrip ((some fs).getD ""))) k query rerankScore
        (dedupByIdx
          ((vecPairs.filterMap (fun p =>
            if 0 ≤ p.1 then some (p.1.toNat, p.2, chunks.getD p.1.toNat "")
            else none)) ++
           ((_bm25_topk bm25Scores (min (max (k * 6) 60)
              chunks.length)).map (fun i => (i, (0 : ℚ), chunks.getD i ""))))
          [])
        ((List.range sources.length).filter (fun i =>
          srcMatches (pyLower (pyStrip ((some fs).getD "")))
            (sources.getD i "")))
        (fun i hi => (List.mem_filter.mp hi).2)
      refine ⟨hspec.1, hspec.2.1, fun h => absurd h hdoc, ?_⟩
      intro _ hk _
      refine hspec.2.2 hk ?_
      intro hnil
      exact hdoc (by rw [hnil]; rfl)

/-- C3, witness for the amended theorem: one-chunk corpus of `a.pdf`
filtered by `"a.pdf"`. -/
theorem C3_witness :
    ("a.pdf" ≠ "") ∧ (pyStrip "a.pdf" ≠ "") ∧
      ((["a.pdf"] : List String) ≠ []) ∧
    ((search ["c0"] ["a.pdf"] [] [0] "" 1 (some "a.pdf") true none).length
        ≤ 1 ∧
      (∀ c ∈ search ["c0"] ["a.pdf"] [] [0] "" 1 (some "a.pdf") true none,
        srcMatchesExact (pyLower (pyStrip "a.pdf"))
          ((["a.pdf"] : List String).getD c.1 "") = true) ∧
      ((((List.range (["a.pdf"] : List String).length).filter (fun i =>
          srcMatches (pyLower (pyStrip "a.pdf"))
            ((["a.pdf"] : List String).getD i ""))).isEmpty = true) →
        search ["c0"] ["a.pdf"] [] [0] "" 1 (some "a.pdf") true none = []) ∧
      ((["c0"] : List String) ≠ [] → 1 ≤ 1 →
        (∃ i, i < (["a.pdf"] : List String).length ∧
          srcMatches (pyLower (pyStrip "a.pdf"))
            ((["a.pdf"] : List String).getD i "") = true) →
        search ["c0"] ["a.pdf"] [] [0] "" 1 (some "a.pdf") true none ≠ [])) :=
  ⟨by decide, by decide, by decide,
   C3_search_filter_spec ["c0"] ["a.pdf"] [] [0] "" 1 "a.pdf" true none
     (by decide) (by decide) (by decide)⟩

/-!
## `ingest.py` — index store metadata operations

The persisted metadata is the triple of parallel arrays
`(chunks, sources, pages)`.  FAISS vectors and the embedding itself are
external; the claims below concern the metadata arrays, dedup keys and the
rebuild/append/persist protocol, which are embedded faithfully.

`_hash_key` (ingest.py lines 135-140) is SHA-1 of
`(source or "unknown", str(int(page or 1)), text or "")`; it is modelled
collision-freely as the normalised triple itself.
-/

/-- An extracted chunk triple `(chunk text, source, page)`, as produced by
`_extract_file_chunks`. -/
abbrev Triple : Type := String × String × Int

/-- The persisted parallel metadata arrays. -/
structure Meta where
  chunks : List String
  sources : List String
  pages : List Int
deriving DecidableEq, Repr

/-- The invariant asserted by `_save_index_and_meta` (ingest.py line 201). -/
def metaConsistent (m : Meta) : Prop :=
  m.chunks.length = m.sources.length ∧ m.sources.length = m.pages.length

instance (m : Meta) : Decidable (metaConsistent m) := by
  unfold metaConsistent
  infer_instance

/-- Embeds `_hash_key` (ingest.py lines 135-140): the chunk identity key
derived from `(source or "unknown", int(page or 1), text or "")`. -/
def _hash_key (source : String) (page : Int) (text : String) :
    String × Int × String :=
  ((if source = "" then "unknown" else source),
   (if page = 0 then 1 else page), text)

/-- Key of a triple, applying the call sites' `s or "unknown"`,
`int(p or 1)`, `ch or ""` normalisations (idempotent with `_hash_key`'s
own). -/
def tripleKey (t : Triple) : String × Int × String :=
  _hash_key t.2.1 t.2.2 t.1

/-- Intra-batch dedup (ingest.py lines 264-275): keep the first triple of
each key. -/
def dedupIntra : List Triple → List (String × Int × String) → List Triple
  | [], _ => []
  | t :: rest, seen =>
    if tripleKey t ∈ seen then dedupIntra rest seen
    else t :: dedupIntra rest (tripleKey t :: seen)

/-- `zip(chs, srcs, pgs)` over the parallel arrays (Python `zip` truncates
to the shortest, as does `List.zip`). -/
def metaTriples (m : Meta) : List Triple :=
  (m.chunks.zip (m.sources.zip m.pages)).map (fun p => (p.1, p.2.1, p.2.2))

/-- The key set of `_build_keys` (ingest.py lines 278-284); only membership
is consulted. -/
def prevKeys (m : Meta) : List (String × Int × String) :=
  (metaTriples m).map tripleKey

/-- Parallel arrays assembled from a triple list (ingest.py lines 291-293:
three parallel comprehensions over `dedup_new`). -/
def tripleMeta (ts : List Triple) : Meta :=
  ⟨ts.map (fun t => t.1), ts.map (fun t => t.2.1), ts.map (fun t => t.2.2)⟩

/-- `prev_model_id and prev_model_id != EMBEDDING_MODEL_ID` (truthy test:
`None` and the empty string are falsy). -/
def rebuildNeeded (prevModelId : Option String) (curModel : String) : Bool :=
  match prevModelId with
  | none => false
  | some pid => (pid ≠ "") && (pid ≠ curModel)

/-- Embeds the metadata-level behaviour of `build_or_update_index`
(ingest.py lines 226-331): intra-batch dedup, dedup against previously
indexed keys, rebuild (no previous index, or a recorded model id differing
from the current one) versus incremental append; `none` models the
`ValueError("No hay contenido para indexar.")` raise.  In both the rebuild
and the append branch the persisted arrays are `prev ++ dedup_new`. -/
def build_or_update_meta (prev : Option Meta) (prevModelId : Option String)
    (curModel : String) (extracted : List Triple) : Option Meta :=
  let newIntra := dedupIntra extracted []
  let pk := match prev with
    | none => ([] : List (String × Int × String))
    | some pm => prevKeys pm
  let newT := newIntra.filter (fun t => tripleKey t ∉ pk)
  match prev with
  | none =>
    if newT.isEmpty then none
    else some (tripleMeta newT)
  | some pm =>
    if rebuildNeeded prevModelId curModel then
      if pm.chunks ++ (newT.map (fun t => t.1)) = [] then none
      else some ⟨pm.chunks ++ newT.map (fun t => t.1),
                 pm.sources ++ newT.map (fun t => t.2.1),
                 pm.pages ++ newT.map (fun t => t.2.2)⟩
    else
      some ⟨pm.chunks ++ newT.map (fun t => t.1),
            pm.sources ++ newT.map (fun t => t.2.1),
            pm.pages ++ newT.map (fun t => t.2.2)⟩

/-- Embeds `_save_index_and_meta` (ingest.py lines 200-210): the `assert`
makes the persist succeed exactly when the three arrays have equal
lengths. -/
def _save_index_and_meta (m : Meta) : Option Meta :=
  if metaConsistent m then some m else none

/-- Embeds the metadata filtering of `delete_document` (app.py lines
505-530): keep the entries whose source differs from the deleted file. -/
def delete_document_meta (filename : String) (m : Meta) : Meta :=
  let keep := (List.range m.sources.length).filter
    (fun i => m.sources.getD i "" ≠ filename)
  ⟨keep.map (fun i => m.chunks.getD i ""),
   keep.map (fun i => m.sources.getD i ""),
   keep.map (fun i => m.pages.getD i 1)⟩

/-- Embeds the length-repair step of `load_index` (ingest.py lines 375-379)
and of `load_index_safe` (lines 417-421): mismatched `sources`/`pages` are
padded with `"unknown"`/`1` and truncated to `len(chunks)` —
`(sources + ["unknown"]*ln)[:ln]`. -/
def load_index_fix (chunks sources : List String) (pages : List Int) : Meta :=
  let ln := chunks.length
  ⟨chunks,
   (if sources.length ≠ ln then (sources ++ List.replicate ln "unknown").take ln
    else sources),
   (if pages.length ≠ ln then (pages ++ List.replicate ln 1).take ln
    else pages)⟩

/-- Outcome of `load_index_safe` (ingest.py lines 382-423). -/
inductive LoadOutcome where
  | rebuilt (m : Meta)
  | loaded (m : Meta)
deriving DecidableEq, Repr

/-- Embeds the decision structure of `load_index_safe`: a recorded model id
differing from the current one, or a missing/mismatched index dimension,
triggers `rebuild_index_from_meta()` (which re-embeds the metadata arrays
unchanged); otherwise the arrays are returned after the length repair. -/
def load_index_safe_model (prevModel : Option String) (curModel : String)
    (idxDim : Option Nat) (curDim : Nat)
    (chunks sources : List String) (pages : List Int) : LoadOutcome :=
  if rebuildNeeded prevModel curModel then
    .rebuilt ⟨chunks, sources, pages⟩
  else if idxDim ≠ some curDim then
    .rebuilt ⟨chunks, sources, pages⟩
  else
    .loaded (load_index_fix chunks sources pages)

/-- C5, confirmed.  After every persist of the index store the three
parallel metadata arrays have equal lengths: (i) whatever
`build_or_update_index` persists (initial build, incremental append, or
model-change rebuild) is consistent, given that the previously persisted
metadata was; (ii) the arrays `delete_document` rewrites are consistent;
(iii) `_save_index_and_meta` (used by the initial build, the append path
and `rebuild_index_from_meta`) persists exactly the consistent states — its
`assert` aborts the persist otherwise. -/
theorem C5_persist_parallel_arrays :
    (∀ (prev : Option Meta) (pid : Option String) (cur : String)
        (extracted : List Triple) (m : Meta),
      (∀ pm, prev = some pm → metaConsistent pm) →
      build_or_update_meta prev pid cur extracted = some m →
      metaConsistent m) ∧
    (∀ (filename : String) (m : Meta), metaConsistent m →
      metaConsistent (delete_document_meta filename m)) ∧
    (∀ (m m' : Meta), _save_index_and_meta m = some m' →
      metaConsistent m' ∧ m' = m) := by
  refine ⟨?_, ?_, ?_⟩
  · intro prev pid cur extracted m hprev hb
    cases prev with
    | none =>
      simp only [build_or_update_meta] at hb
      split at hb
      · exact absurd hb (by simp)
      · injection hb with hb
        subst hb
        simp [metaConsistent, tripleMeta]
    | some pm =>
      have hpm : metaConsistent pm := hprev pm rfl
      simp only [build_or_update_meta] at hb
      split at hb
      · split at hb
        · exact absurd hb (by simp)
        · injection hb with hb
          subst hb
          simp only [metaConsistent, List.length_append, List.length_map]
          obtain ⟨h1, h2⟩ := hpm
          omega
      · injection hb with hb
        subst hb
        simp only [metaConsistent, List.length_append, List.length_map]
        obtain ⟨h1, h2⟩ := hpm
        omega
  · intro filename m _
    simp [metaConsistent, delete_document_meta]
  · intro m m' h
    unfold _save_index_and_meta at h
    split at h
    · injection h with h
      subst h
      constructor
      · assumption
      · rfl
    · exact absurd h (by simp)

/-- C5, witness: a one-file initial build persists consistent arrays; a
delete on that state stays consistent. -/
theorem C5_witness :
    ((∀ pm, (none : Option Meta) = some pm → metaConsistent pm) ∧
      build_or_update_meta none none "e5" [("hola", "a.pdf", 1)]
        = some ⟨["hola"], ["a.pdf"], [1]⟩) ∧
    metaConsistent (⟨["hola"], ["a.pdf"], [1]⟩ : Meta) ∧
    metaConsistent (delete_document_meta "b.pdf" ⟨["hola"], ["a.pdf"], [1]⟩) :=
  ⟨⟨fun pm h => Option.noConfusion h, by decide⟩,
   (C5_persist_parallel_arrays.1 none none "e5" [("hola", "a.pdf", 1)]
      ⟨["hola"], ["a.pdf"], [1]⟩ (fun pm h => Option.noConfusion h)
      (by decide)),
   (C5_persist_parallel_arrays.2.1 "b.pdf" ⟨["hola"], ["a.pdf"], [1]⟩
      (by decide))⟩

/-- C6, counterexample.  The claim "when the persisted metadata arrays have
mismatched lengths, loading treats this as a fatal data-corruption error and
never silently repairs it by padding or truncating" is false: `load_index`
on `chunks` of length 2, `sources` of length 1 and `pages` of length 3
returns successfully with `sources` padded by `"unknown"` and `pages`
truncated — no error is raised. -/
theorem C6_load_repairs_silently :
    load_index_fix ["a", "b"] ["x"] [1, 1, 1]
      = ⟨["a", "b"], ["x", "unknown"], [1, 1]⟩ ∧
    (["x"] : List String).length ≠ (["a", "b"] : List String).length := by
  exact ⟨by decide, by decide⟩

/-- C6, amended.  Loading the index never fails on a metadata length
mismatch: `load_index` (and the final step of `load_index_safe`) silently
repairs mismatched `sources`/`pages` by padding with `"unknown"`/`1` and
truncating to `len(chunks)`, producing equal-length arrays; matching arrays
are returned unchanged.  `load_index_safe` triggers the silent rebuild from
metadata exactly when the recorded embedding-model id is present, non-empty
and differs from the current one, or when the index dimension is missing or
differs from the encoder's. -/
theorem C6_load_index_spec (chunks sources : List String) (pages : List Int)
    (prevModel : Option String) (curModel : String) (idxDim : Option Nat)
    (curDim : Nat) :
    metaConsistent (load_index_fix chunks sources pages) ∧
    (sources.length = chunks.length →
      (load_index_fix chunks sources pages).sources = sources) ∧
    (sources.length ≠ chunks.length →
      (load_index_fix chunks sources pages).sources
        = (sources ++ List.replicate chunks.length "unknown").take
            chunks.length) ∧
    (pages.length = chunks.length →
      (load_index_fix chunks sources pages).pages = pages) ∧
    (pages.length ≠ chunks.length →
      (load_index_fix chunks sources pages).pages
        = (pages ++ List.replicate chunks.length 1).take chunks.length) ∧
    (load_index_safe_model prevModel curModel idxDim curDim chunks sources
        pages = LoadOutcome.rebuilt ⟨chunks, sources, pages⟩
      ↔ (rebuildNeeded prevModel curModel = true ∨ idxDim ≠ some curDim)) := by
  refine ⟨?_, ?_, ?_, ?_, ?_, ?_⟩
  · unfold load_index_fix metaConsistent
    by_cases hs : sources.length ≠ chunks.length <;>
      by_cases hp : pages.length ≠ chunks.length <;>
        simp [hs, hp, List.length_take] <;> omega
  · intro h
    simp [load_index_fix, h]
  · intro h
    simp [load_index_fix, h]
  · intro h
    simp [load_index_fix, h]
  · intro h
    simp [load_index_fix, h]
  · unfold load_index_safe_model
    constructor
    · intro h
      by_cases h1 : rebuildNeeded prevModel curModel
      · exact Or.inl h1
      · rw [if_neg h1] at h
        by_cases h2 : idxDim ≠ some curDim
        · exact Or.inr h2
        · rw [if_neg h2] at h
          exact absurd h (by simp)
    · rintro (h | h)
      · rw [if_pos h]
      · by_cases h1 : rebuildNeeded prevModel curModel
        · rw [if_pos h1]
        · rw [if_neg h1, if_pos h]

/-- C6, witness for the amended theorem at the counterexample's mismatched
input: the repaired arrays are consistent. -/
theorem C6_witness :
    metaConsistent (load_index_fix ["a", "b"] ["x"] [1, 1, 1]) ∧
    ((["x"] : List String).length ≠ (["a", "b"] : List String).length →
      (load_index_fix ["a", "b"] ["x"] [1, 1, 1]).sources
        = ((["x"] ++ List.replicate 2 "unknown" : List String)).take 2) :=
  ⟨(C6_load_index_spec ["a", "b"] ["x"] [1, 1, 1] none "e5" (some 3) 3).1,
   (C6_load_index_spec ["a", "b"] ["x"] [1, 1, 1] none "e5" (some 3) 3).2.2.1⟩

lemma dedupIntra_ne_nil (t : Triple) (rest : List Triple) :
    dedupIntra (t :: rest) [] ≠ [] := by
  simp [dedupIntra]

lemma metaTriples_tripleMeta (ts : List Triple) :
    metaTriples (tripleMeta ts) = ts := by
  unfold metaTriples tripleMeta
  simp [List.zip_map', List.map_map]

/-- C7, confirmed.  Ingesting the same extracted batch twice with an
unchanged embedding model is idempotent: the first ingestion from an empty
store persists the intra-deduplicated batch, and the second ingestion
contributes zero net new chunks — every chunk key already appears in the
previously indexed key set — leaving the persisted metadata (and its chunk
count) unchanged. -/
theorem C7_reingest_idempotent (extracted : List Triple) (cur : String)
    (hne : extracted ≠ []) :
    ∃ m1 : Meta,
      build_or_update_meta none none cur extracted = some m1 ∧
      build_or_update_meta (some m1) (some cur) cur extracted = some m1 ∧
      m1.chunks.length = (dedupIntra extracted []).length := by
  obtain ⟨t, rest, rfl⟩ := List.exists_cons_of_ne_nil hne
  have hD : dedupIntra (t :: rest) [] ≠ [] := dedupIntra_ne_nil t rest
  have hfilter : (dedupIntra (t :: rest) []).filter
      (fun x => tripleKey x ∉ ([] : List (String × Int × String)))
      = dedupIntra (t :: rest) [] :=
    List.filter_eq_self.mpr (fun a _ => by simp)
  refine ⟨tripleMeta (dedupIntra (t :: rest) []), ?_, ?_, ?_⟩
  · simp only [build_or_update_meta, hfilter]
    rw [if_neg (by simpa [List.isEmpty_iff] using hD)]
  · have hreb : rebuildNeeded (some cur) cur = false := by
      simp [rebuildNeeded]
    have hkeys : prevKeys (tripleMeta (dedupIntra (t :: rest) []))
        = (dedupIntra (t :: rest) []).map tripleKey := by
      unfold prevKeys
      rw [metaTriples_tripleMeta]
    have hnil : (dedupIntra (t :: rest) []).filter
        (fun x => tripleKey x ∉
          (dedupIntra (t :: rest) []).map tripleKey) = [] := by
      refine List.filter_eq_nil.mpr ?_
      intro a ha
      simp only [decide_eq_true_eq, not_not]
      exact List.mem_map_of_mem tripleKey ha
    simp only [build_or_update_meta, hkeys, hnil, hreb]
    simp [tripleMeta]
  · simp [tripleMeta]

/-- C7, witness: re-ingesting a concrete one-chunk batch. -/
theorem C7_witness :
    (([("hola", "a.pdf", (1 : Int))] : List Triple) ≠ []) ∧
    (∃ m1 : Meta,
      build_or_update_meta none none "e5" [("hola", "a.pdf", 1)] = some m1 ∧
      build_or_update_meta (some m1) (some "e5") "e5"
        [("hola", "a.pdf", 1)] = some m1 ∧
      m1.chunks.length
        = (dedupIntra [("hola", "a.pdf", 1)] []).length) :=
  ⟨by decide,
   C7_reingest_idempotent [("hola", "a.pdf", 1)] "e5" (by decide)⟩

/-!
## `ingest.py` — text cleaning and sentence-window chunking
(`_clean_text`, lines 37-42, and `_smart_chunk`, lines 87-103) and
`enhanced_retrieval.py` — `SmartChunker._smart_split` (lines 73-91).

`_clean_text` applies, in order: `\r\n?` → `\n`, runs of space/tab → one
space, NBSP → space, runs of ≥3 newlines → two, and a final strip.  Each
regex substitution is implemented as a structurally recursive scan.

`_smart_chunk` and `_smart_split` first split the text into sentences
(`_split_sentences`, a regex with abbreviation protection); the embeddings
below take that sentence list as input and embed the accumulation loops,
which is where the claim's size-cap and hard-split behaviour lives.
-/

/-- `re.sub(r"\r\n?", "\n", s)`. -/
def crToNl : List Char → List Char
  | [] => []
  | '\r' :: '\n' :: rest => '\n' :: crToNl rest
  | '\r' :: rest => '\n' :: crToNl rest
  | c :: rest => c :: crToNl rest

/-- `re.sub(r"[ \t]+", " ", s)`-style run collapsing: one `rep` per maximal
run of characters satisfying `isRun` (the flag records whether the previous
character was in a run). -/
def collapseAux (isRun : Char → Bool) (rep : Char) :
    Bool → List Char → List Char
  | _, [] => []
  | inRun, c :: rest =>
    if isRun c then
      if inRun then collapseAux isRun rep true rest
      else rep :: collapseAux isRun rep true rest
    else c :: collapseAux isRun rep false rest

/-- `re.sub(r"\n{3,}", "\n\n", s)`: keep at most two consecutive
newlines. -/
def nlCollapseAux : Nat → List Char → List Char
  | _, [] => []
  | seen, c :: rest =>
    if c = '\n' then
      if 2 ≤ seen then nlCollapseAux seen rest
      else '\n' :: nlCollapseAux (seen + 1) rest
    else c :: nlCollapseAux 0 rest

/-- Embeds `_clean_text` (ingest.py lines 37-42). -/
def _clean_text (s : String) : String :=
  pyStrip (String.mk (nlCollapseAux 0
    (((collapseAux (fun c => c = ' ' || c = '\t') ' ' false
        (crToNl s.data))).map (fun c => if c = '\u00A0' then ' ' else c))))

/-- `" ".join(buf)`. -/
def joinSp (l : List String) : String := joinSep " " l

/-- The sentence-accumulation loop of `_smart_chunk` (ingest.py lines
90-102): flush when the next sentence would exceed `max_chunk_size`
(counting one joining space), reseed the buffer with the last
`overlap_sents` sentences, then append the sentence unconditionally. -/
def smartChunkLoop (maxCS o : Nat) :
    List String → List String → Nat → List String → List String
  | [], buf, _, out =>
    if buf.isEmpty then out else out ++ [_clean_text (joinSp buf)]
  | s :: rest, buf, curLen, out =>
    if maxCS < curLen + s.length + 1 ∧ ¬ buf.isEmpty then
      let out' := out ++ [_clean_text (joinSp buf)]
      let buf' := if 0 < o then buf.drop (buf.length - o) else []
      let curLen' := (buf'.map String.length).sum
        + (if buf'.isEmpty then 0 else buf'.length - 1)
      smartChunkLoop maxCS o rest (buf' ++ [s]) (curLen' + s.length + 1) out'
    else
      smartChunkLoop maxCS o rest (buf ++ [s]) (curLen + s.length + 1) out

/-- Embeds `_smart_chunk` (ingest.py lines 87-103) on the sentence list
produced by `_split_sentences`; the final comprehension drops
whitespace-only chunks. -/
def _smart_chunk_sents (maxCS o : Nat) (sents : List String) : List String :=
  (smartChunkLoop maxCS o sents [] 0 []).filter (fun c => pyStrip c ≠ "")

/-- The forced hard split of an oversized sentence in
`SmartChunker._smart_split` (enhanced_retrieval.py lines 80-84):
`for i in range(0, len(s), step): out.append(s[i:i+max_chunk_size])` with
`step = max_chunk_size - 50`.  Python's `range` with a non-positive step is
empty (negative) or raises (zero); both degenerate cases yield no pieces
here and are excluded by the theorems' `50 < maxCS` hypothesis. -/
def hardSplitPieces (maxCS step : Nat) (s : String) : List String :=
  if step = 0 then []
  else (List.range ((s.length + step - 1) / step)).map
    (fun j => String.mk ((s.data.drop (j * step)).take maxCS))

/-- The accumulation loop of `SmartChunker._smart_split`
(enhanced_retrieval.py lines 73-91): oversized sentences flush the buffer
and are hard-split; otherwise sentences accumulate with overlap reseeding
(note: unlike `_smart_chunk`, joining spaces are not counted). -/
def smartSplitLoop (maxCS overlapS : Nat) :
    List String → List String → Nat → List String → List String
  | [], cur, _, out => if cur.isEmpty then out else out ++ [joinSp cur]
  | s :: rest, cur, curLen, out =>
    if maxCS < s.length then
      let out1 := if cur.isEmpty then out else out ++ [joinSp cur]
      let out2 := out1 ++ hardSplitPieces maxCS (maxCS - 50) s
      smartSplitLoop maxCS overlapS rest [] 0 out2
    else if maxCS < curLen + s.length then
      let out' := out ++ [joinSp cur]
      let cur' := if 0 < overlapS then cur.drop (cur.length - overlapS)
        else []
      let curLen' := (cur'.map String.length).sum
      smartSplitLoop maxCS overlapS rest (cur' ++ [s])
        (curLen' + s.length) out'
    else
      smartSplitLoop maxCS overlapS rest (cur ++ [s]) (curLen + s.length) out

/-- Embeds `SmartChunker._smart_split` on the sentence list. -/
def _smart_split_sents (maxCS overlapS : Nat) (sents : List String) :
    List String :=
  smartSplitLoop maxCS overlapS sents [] 0 []

/-- A 901-character sentence exceeding the default `CHUNK_SIZE = 900`. -/
def longSentC8 : String := String.mk (List.replicate 901 'a')

lemma crToNl_length_le : ∀ l : List Char, (crToNl l).length ≤ l.length := by
  intro l
  induction l using crToNl.induct with
  | case1 => simp [crToNl]
  | case2 rest ih =>
    simp [crToNl]
    omega
  | case3 rest ih =>
    simp [crToNl]
    omega
  | case4 c rest h1 h2 ih =>
    simp [crToNl]
    omega

lemma collapseAux_length_le (isRun : Char → Bool) (rep : Char) :
    ∀ (l : List Char) (b : Bool),
      (collapseAux isRun rep b l).length ≤ l.length := by
  intro l
  induction l with
  | nil =>
    intro b
    simp [collapseAux]
  | cons c rest ih =>
    intro b
    rw [collapseAux]
    by_cases h : isRun c
    · rw [if_pos h]
      by_cases hb : b
      · rw [if_pos hb]
        exact le_trans (ih true) (Nat.le_succ _)
      · rw [if_neg hb]
        simpa using ih true
    · rw [if_neg h]
      simpa using ih false

lemma nlCollapseAux_length_le :
    ∀ (l : List Char) (n : Nat), (nlCollapseAux n l).length ≤ l.length := by
  intro l
  induction l with
  | nil =>
    intro n
    simp [nlCollapseAux]
  | cons c rest ih =>
    intro n
    rw [nlCollapseAux]
    by_cases h : c = '\n'
    · rw [if_pos h]
      by_cases h2 : 2 ≤ n
      · rw [if_pos h2]
        exact le_trans (ih n) (Nat.le_succ _)
      · rw [if_neg h2]
        simpa using ih (n + 1)
    · rw [if_neg h]
      simpa using ih 0

lemma pyStrip_length_le (s : String) : (pyStrip s).length ≤ s.length := by
  unfold pyStrip
  simp only [String.length]
  calc _ ≤ ((s.data.dropWhile Char.isWhitespace)).length := by
        simpa using (List.dropWhile_sublist _ (l := (s.data.dropWhile
          Char.isWhitespace).reverse)).length_le
    _ ≤ s.data.length := (List.dropWhile_sublist _).length_le

lemma clean_text_length_le (s : String) :
    (_clean_text s).length ≤ s.length := by
  unfold _clean_text
  refine le_trans (pyStrip_length_le _) ?_
  simp only [String.length]
  refine le_trans (nlCollapseAux_length_le _ 0) ?_
  rw [List.length_map]
  exact le_trans (collapseAux_length_le _ _ _ false) (crToNl_length_le _)

lemma joinSp_length_eq :
    ∀ (l : List String), l ≠ [] →
      (joinSp l).length = (l.map String.length).sum + l.length - 1 := by
  intro l
  induction l with
  | nil =>
    intro h
    exact absurd rfl h
  | cons x xs ih =>
    intro _
    cases xs with
    | nil =>
      simp [joinSp, joinSep]
    | cons y ys =>
      have hne : y :: ys ≠ [] := by simp
      have : joinSp (x :: y :: ys) = x ++ " " ++ joinSp (y :: ys) := rfl
      rw [this]
      have hlen : (x ++ " " ++ joinSp (y :: ys)).length
          = x.length + 1 + (joinSp (y :: ys)).length := by
        have h1 : (" " : String).length = 1 := rfl
        simp only [String.length_append, h1]
      rw [hlen, ih hne]
      have hpos : 1 ≤ (y :: ys).length := by simp
      simp only [List.map_cons, List.sum_cons, List.length_cons]
      omega

lemma joinSp_length_le_of (l : List String) (L m : Nat)
    (hx : ∀ x ∈ l, x.length ≤ L) (hm : l.length ≤ m) :
    (joinSp l).length ≤ m * L + m - 1 := by
  cases l with
  | nil =>
    simp [joinSp, joinSep, String.length]
  | cons x xs =>
    rw [joinSp_length_eq (x :: xs) (by simp)]
    have hsum : ((x :: xs).map String.length).sum
        ≤ (x :: xs).length * L := by
      have := List.sum_le_card_nsmul ((x :: xs).map String.length) L
        (by
          intro a ha
          obtain ⟨y, hy, rfl⟩ := List.mem_map.mp ha
          exact hx y hy)
      simpa [smul_eq_mul] using this
    have hmul : (x :: xs).length * L ≤ m * L :=
      Nat.mul_le_mul_right L hm
    have hlen1 : 1 ≤ (x :: xs).length := by simp
    omega

lemma joinSp_append_single (l : List String) (x : String) (h : l ≠ []) :
    (joinSp (l ++ [x])).length = (joinSp l).length + 1 + x.length := by
  rw [joinSp_length_eq _ (by simp), joinSp_length_eq l h]
  have h1 : 1 ≤ l.length := List.length_pos.mpr h
  simp only [List.map_append, List.sum_append, List.length_append,
    List.map_cons, List.map_nil, List.sum_cons, List.sum_nil,
    List.length_cons, List.length_nil]
  omega

/-- Invariant proof for the `_smart_chunk` loop: with `L` bounding every
sentence length, every emitted chunk is bounded by
`max maxCS ((o+1)·L + o)` — the excess over `maxCS` comes from the overlap
reseeding followed by the unconditional append. -/
lemma smartChunkLoop_bound (maxCS o L : Nat) :
    ∀ (sents buf : List String) (curLen : Nat) (out : List String),
      (∀ x ∈ sents, x.length ≤ L) →
      (∀ x ∈ buf, x.length ≤ L) →
      (joinSp buf).length ≤ curLen →
      (joinSp buf).length ≤ max maxCS ((o + 1) * L + o) →
      (∀ c ∈ out, c.length ≤ max maxCS ((o + 1) * L + o)) →
      ∀ c ∈ smartChunkLoop maxCS o sents buf curLen out,
        c.length ≤ max maxCS ((o + 1) * L + o) := by
  have hLB : L ≤ max maxCS ((o + 1) * L + o) := by
    have h1 : 1 * L ≤ (o + 1) * L := Nat.mul_le_mul_right L (by omega)
    have h2 : L ≤ (o + 1) * L + o := by omega
    exact le_trans h2 (le_max_right _ _)
  intro sents
  induction sents with
  | nil =>
    intro buf curLen out _ _ _ hbufB hout c hc
    rw [smartChunkLoop] at hc
    by_cases hb : buf.isEmpty
    · rw [if_pos hb] at hc
      exact hout c hc
    · rw [if_neg hb] at hc
      rcases List.mem_append.mp hc with h | h
      · exact hout c h
      · simp only [List.mem_singleton] at h
        subst h
        exact le_trans (clean_text_length_le _) hbufB
  | cons s rest ih =>
    intro buf curLen out hsents hbufL hbufLen hbufB hout
    have hsL : s.length ≤ L := hsents s (List.mem_cons_self _ _)
    have hrest : ∀ x ∈ rest, x.length ≤ L :=
      fun x hx => hsents x (List.mem_cons_of_mem _ hx)
    rw [smartChunkLoop]
    by_cases hcond : maxCS < curLen + s.length + 1 ∧ ¬ buf.isEmpty = true
    · rw [if_pos hcond]
      have hout' : ∀ c ∈ out ++ [_clean_text (joinSp buf)],
          c.length ≤ max maxCS ((o + 1) * L + o) := by
        intro c hc
        rcases List.mem_append.mp hc with h | h
        · exact hout c h
        · simp only [List.mem_singleton] at h
          subst h
          exact le_trans (clean_text_length_le _) hbufB
      have hbuf'L : ∀ x ∈ (if 0 < o then buf.drop (buf.length - o) else []),
          x.length ≤ L := by
        intro x hx
        split at hx
        · exact hbufL x (List.drop_subset _ _ hx)
        · simp at hx
      have hbuf'len :
          (if 0 < o then buf.drop (buf.length - o) else []).length ≤ o := by
        split
        · rw [List.length_drop]
          omega
        · simp
      have hjoin' : (joinSp (if 0 < o then buf.drop (buf.length - o)
          else [])).length
          = ((if 0 < o then buf.drop (buf.length - o) else []).map
              String.length).sum
            + (if (if 0 < o then buf.drop (buf.length - o)
                else []).isEmpty then 0
              else (if 0 < o then buf.drop (buf.length - o)
                else []).length - 1) := by
        by_cases hbe : (if 0 < o then buf.drop (buf.length - o)
            else []).isEmpty
        · have hnil : (if 0 < o then buf.drop (buf.length - o) else [])
              = [] := List.isEmpty_iff.mp hbe
          rw [hnil]
          simp [joinSp, joinSep, String.length]
        · have hne : (if 0 < o then buf.drop (buf.length - o) else [])
              ≠ [] := fun h => (by simp [h] at hbe)
          rw [joinSp_length_eq _ hne, if_neg hbe]
          have h1 : 1 ≤ (if 0 < o then buf.drop (buf.length - o)
              else []).length := List.length_pos.mpr hne
          omega
      have hnewL : ∀ x ∈ (if 0 < o then buf.drop (buf.length - o)
          else []) ++ [s], x.length ≤ L := by
        intro x hx
        rcases List.mem_append.mp hx with h | h
        · exact hbuf'L x h
        · simp only [List.mem_singleton] at h
          subst h
          exact hsL
      have hjoinnew : (joinSp ((if 0 < o then buf.drop (buf.length - o)
            else []) ++ [s])).length
          ≤ (((if 0 < o then buf.drop (buf.length - o) else []).map
              String.length).sum
            + (if (if 0 < o then buf.drop (buf.length - o)
                else []).isEmpty then 0
              else (if 0 < o then buf.drop (buf.length - o)
                else []).length - 1)) + s.length + 1 ∧
          (joinSp ((if 0 < o then buf.drop (buf.length - o)
            else []) ++ [s])).length ≤ max maxCS ((o + 1) * L + o) := by
        by_cases hbe : (if 0 < o then buf.drop (buf.length - o) else [])
            = []
        · rw [hbe]
          simp only [List.nil_append]
          have hjs : (joinSp [s]).length = s.length := by
            simp [joinSp, joinSep]
          rw [hjs]
          exact ⟨by omega, le_trans hsL hLB⟩
        · rw [joinSp_append_single _ s hbe, ← hjoin']
          constructor
          · omega
          · have hb1 : (joinSp (if 0 < o then buf.drop (buf.length - o)
                else [])).length ≤ o * L + o - 1 :=
              joinSp_length_le_of _ L o hbuf'L hbuf'len
            have hmul : (o + 1) * L = o * L + L := by ring
            have ho : 0 < o := by
              by_contra hno
              exact hbe (by rw [if_neg hno])
            have : (joinSp (if 0 < o then buf.drop (buf.length - o)
                else [])).length + 1 + s.length ≤ (o + 1) * L + o := by
              omega
            exact le_trans this (le_max_right _ _)
      exact ih _ _ _ hrest hnewL hjoinnew.1 hjoinnew.2 hout'
    · rw [if_neg hcond]
      have hnewL : ∀ x ∈ buf ++ [s], x.length ≤ L := by
        intro x hx
        rcases List.mem_append.mp hx with h | h
        · exact hbufL x h
        · simp only [List.mem_singleton] at h
          subst h
          exact hsL
      have hjoinnew : (joinSp (buf ++ [s])).length ≤ curLen + s.length + 1 ∧
          (joinSp (buf ++ [s])).length ≤ max maxCS ((o + 1) * L + o) := by
        by_cases hbe : buf = []
        · rw [hbe]
          simp only [List.nil_append]
          have hjs : (joinSp [s]).length = s.length := by
            simp [joinSp, joinSep]
          rw [hjs]
          exact ⟨by omega, le_trans hsL hLB⟩
        · have hnemp : ¬ buf.isEmpty = true := by
            simpa [List.isEmpty_iff] using hbe
          have hle : curLen + s.length + 1 ≤ maxCS := by
            rcases Decidable.not_and_iff_or_not.mp hcond with h | h
            · omega
            · exact absurd hnemp (by simpa using h)
          rw [joinSp_append_single buf s hbe]
          refine ⟨by omega, ?_⟩
          exact le_trans (by omega) (le_trans hle (le_max_left _ _))
      exact ih _ _ _ hrest hnewL hjoinnew.1 hjoinnew.2 hout

set_option maxRecDepth 8000 in
/-- C8, counterexample.  The claim "every chunk produced by the text
segmenter is at most the configured maximum size in characters; a single
sentence longer than the maximum size is hard-split at the size boundary
... rather than emitted whole" is false for the segmenter the ingestion
pipeline actually uses: `_smart_chunk` (via `_extract_file_chunks`) emits a
901-character sentence as one whole chunk although `CHUNK_SIZE = 900` — it
has no hard-split step. -/
theorem C8_oversized_chunk_emitted_whole :
    _smart_chunk_sents 900 2 [longSentC8] = [longSentC8] ∧
    900 < longSentC8.length := by
  constructor
  · rfl
  · decide

/-- C8, amended.  (i) Every chunk `_smart_chunk` produces is at most
`max(max_chunk_size, (overlap_sents+1)·L + overlap_sents)` characters,
where `L` bounds the sentence lengths — the excess over `max_chunk_size`
comes from the overlap reseeding followed by the unconditional append, and
an oversized sentence is emitted whole.  (ii) In
`SmartChunker._smart_split` (enhanced_retrieval.py) an oversized sentence
*is* hard-split: every piece is at most `max_chunk_size` characters, at
least one piece is produced, and the first piece is exactly the first
`max_chunk_size` characters of the sentence (subsequent pieces restart
`50` characters before the previous boundary). -/
theorem C8_segmenter_spec (maxCS o L : Nat) (sents : List String)
    (hL : ∀ x ∈ sents, x.length ≤ L) (s : String) (hs : maxCS < s.length)
    (hstep : 50 < maxCS) :
    (∀ c ∈ _smart_chunk_sents maxCS o sents,
      c.length ≤ max maxCS ((o + 1) * L + o)) ∧
    (∀ p ∈ hardSplitPieces maxCS (maxCS - 50) s, p.length ≤ maxCS) ∧
    hardSplitPieces maxCS (maxCS - 50) s ≠ [] ∧
    (hardSplitPieces maxCS (maxCS - 50) s).headD ""
      = String.mk (s.data.take maxCS) := by
  have hstep0 : maxCS - 50 ≠ 0 := by omega
  have hceil : (s.length + (maxCS - 50) - 1) / (maxCS - 50) ≠ 0 := by
    intro h
    have h1 := Nat.div_add_mod (s.length + (maxCS - 50) - 1) (maxCS - 50)
    have h2 := Nat.mod_lt (s.length + (maxCS - 50) - 1)
      (Nat.pos_of_ne_zero hstep0)
    rw [h] at h1
    omega
  refine ⟨?_, ?_, ?_, ?_⟩
  · intro c hc
    have hc' : c ∈ smartChunkLoop maxCS o sents [] 0 [] :=
      List.mem_of_mem_filter hc
    refine smartChunkLoop_bound maxCS o L sents [] 0 [] hL ?_ ?_ ?_ ?_ c hc'
    · intro x hx
      simp at hx
    · simp [joinSp, joinSep, String.length]
    · simp [joinSp, joinSep, String.length]
    · intro c hc
      simp at hc
  · intro p hp
    unfold hardSplitPieces at hp
    rw [if_neg hstep0] at hp
    obtain ⟨j, _, rfl⟩ := List.mem_map.mp hp
    simp only [String.length]
    exact le_trans (List.length_take_le _ _) le_rfl
  · unfold hardSplitPieces
    rw [if_neg hstep0]
    intro h
    rw [List.map_eq_nil] at h
    exact hceil (by simpa [List.range_eq_nil] using h)
  · unfold hardSplitPieces
    rw [if_neg hstep0]
    obtain ⟨m, hm⟩ := Nat.exists_eq_succ_of_ne_zero hceil
    rw [hm, List.range_succ_eq_map]
    simp

set_option maxRecDepth 8000 in
/-- C8, witness for the amended theorem: two short sentences under
`CHUNK_SIZE = 900` with sentence bound `L = 3`, and the 901-character
sentence for the hard-split part. -/
theorem C8_witness :
    (∀ x ∈ (["ab.", "cd."] : List String), x.length ≤ 3) ∧
    900 < longSentC8.length ∧ 50 < 900 ∧
    ((∀ c ∈ _smart_chunk_sents 900 2 ["ab.", "cd."],
        c.length ≤ max 900 ((2 + 1) * 3 + 2)) ∧
      (∀ p ∈ hardSplitPieces 900 (900 - 50) longSentC8, p.length ≤ 900) ∧
      hardSplitPieces 900 (900 - 50) longSentC8 ≠ [] ∧
      (hardSplitPieces 900 (900 - 50) longSentC8).headD ""
        = String.mk (longSentC8.data.take 900)) :=
  ⟨by decide, by decide, by decide,
   C8_segmenter_spec 900 2 3 ["ab.", "cd."] (by decide) longSentC8
     (by decide) (by decide)⟩

end RagCheck

